import Mathlib

/-!
Verification of the `.tool-versions` document model
(`src/config/config_file/tool_versions.rs`): the data model, the parser
(`parse_str` / `parse_plugins`), the serializer (`dump`) and the mutators
(`add_version`, `replace_versions`, `remove_plugin`).

Strings are modelled as `List Char`.  Rust's `str` iterator helpers
(`lines`, `trim_start`, `trim_end`, `split_once`, `split_whitespace`,
`trim_end_matches`) are given explicit executable definitions below that
follow the Rust standard-library semantics.  The `IndexMap` of the source
is modelled as an association list whose operations reproduce the
indexmap crate semantics: `insert` overwrites in place keeping the
position (appending fresh keys at the end), and `remove` is
`swap_remove`: the last entry is swapped into the removed slot.
-/

set_option maxRecDepth 4000

abbrev Str := List Char

/-- Rust `char::is_whitespace` (the Unicode `White_Space` property). -/
def rustIsWhitespace (c : Char) : Bool :=
  c.val = 9 || c.val = 10 || c.val = 11 || c.val = 12 || c.val = 13 ||
  c.val = 32 || c.val = 0x85 || c.val = 0xA0 || c.val = 0x1680 ||
  (0x2000 ≤ c.val && c.val ≤ 0x200A) ||
  c.val = 0x2028 || c.val = 0x2029 || c.val = 0x202F || c.val = 0x205F ||
  c.val = 0x3000

/-- Split a string at every `'\n'`; a string with `n` newlines yields
`n + 1` pieces (the pieces do not contain `'\n'`). -/
def splitNl : Str → List Str
  | [] => [[]]
  | c :: rest =>
    if c = '\n' then [] :: splitNl rest
    else
      match splitNl rest with
      | [] => [[c]]
      | l :: ls => (c :: l) :: ls

/-- Remove one trailing `'\r'` if present (Rust `lines` CRLF handling). -/
def stripCr (s : Str) : Str :=
  match s.reverse with
  | '\r' :: rest => rest.reverse
  | _ => s

/-- Rust `str::lines`: split at `'\n'`, drop a final empty piece (the
final line ending is optional), strip one trailing `'\r'` per line. -/
def rustLines (s : Str) : List Str :=
  (if (splitNl s).getLast? = some [] then (splitNl s).dropLast else splitNl s).map
    stripCr

/-- Rust `str::trim_start`. -/
def trimStart (s : Str) : Str := s.dropWhile rustIsWhitespace

/-- Rust `str::trim_end`. -/
def trimEnd (s : Str) : Str := (s.reverse.dropWhile rustIsWhitespace).reverse

/-- `line.trim_start().starts_with('#')`. -/
def isCommentLine (line : Str) : Bool :=
  match trimStart line with
  | '#' :: _ => true
  | _ => false

/-- Rust `str::split_once('#')`. -/
def splitOnce : Str → Option (Str × Str)
  | [] => none
  | c :: rest =>
    if c = '#' then some ([], rest)
    else (splitOnce rest).map (fun p => (c :: p.1, p.2))

/-- `line.split_once('#').unwrap_or((line, ""))`. -/
def splitOnceHash (line : Str) : Str × Str :=
  match splitOnce line with
  | none => (line, [])
  | some p => p

/-- Worker for `splitWhitespace`: `tok` holds the (reversed) pending
non-whitespace run. -/
def splitWsAux : Str → Str → List Str
  | [], tok => if tok = [] then [] else [tok.reverse]
  | c :: rest, tok =>
    if rustIsWhitespace c then
      if tok = [] then splitWsAux rest [] else tok.reverse :: splitWsAux rest []
    else splitWsAux rest (c :: tok)

/-- Rust `str::split_whitespace`: maximal runs of non-whitespace
characters, with no empty tokens. -/
def splitWhitespace (s : Str) : List Str := splitWsAux s []

/-- Rust `str::trim_end_matches(':')`. -/
def trimEndColons (s : Str) : Str := (s.reverse.dropWhile (fun c => c = ':')).reverse

/-- One entry of the file: the version list and the text re-emitted after
the rendered `name versions...` segment (field names from the source:
`versions`, `post`). -/
structure ToolVersionPlugin where
  versions : List Str
  post : Str
deriving Repr, DecidableEq, Inhabited

/-- The insertion-ordered map of the source (`IndexMap<PluginName,
ToolVersionPlugin>`), as an association list with unique keys. -/
abbrev Entries := List (Str × ToolVersionPlugin)

/-- The `.tool-versions` document (`struct ToolVersions`). -/
structure ToolVersions where
  path : Str
  pre : Str
  plugins : Entries
deriving Repr, DecidableEq, Inhabited

/-- `plugins.values_mut().last()` mutation: append `c` to the post of the
last entry; no effect when the map is empty. -/
def appendToLastPost : Entries → Str → Entries
  | [], _ => []
  | [e], c => [(e.1, { e.2 with post := e.2.post ++ c })]
  | e :: e2 :: es, c => e :: appendToLastPost (e2 :: es) c

/-- `IndexMap::insert`: overwrite the value in place when the key is
present (position unchanged), else append at the end. -/
def insertIdx : Entries → Str → ToolVersionPlugin → Entries
  | [], k, v => [(k, v)]
  | e :: es, k, v => if e.1 = k then (e.1, v) :: es else e :: insertIdx es k v

/-- `match post { "" => "\n", _ => [" #", post, "\n"].join("") }`. -/
def mkPost (post : Str) : Str :=
  match post with
  | [] => ['\n']
  | _ => ' ' :: '#' :: (post ++ ['\n'])

/-- The body of the `for line in input.lines()` loop of `parse_plugins`. -/
def processLine (plugins : Entries) (line : Str) : Entries :=
  if isCommentLine line then
    appendToLastPost plugins (line ++ ['\n'])
  else
    match splitWhitespace (splitOnceHash line).1 with
    | [] => plugins
    | t :: rest =>
      insertIdx plugins (trimEndColons t) ⟨rest, mkPost (splitOnceHash line).2⟩

/-- `ToolVersions::parse_plugins`.  The Rust function returns
`Result<IndexMap<..>>` but its body has no fallible operation; the
`Except` layer mirrors the `Ok` wrapper. -/
def parse_plugins (input : Str) : Except Str Entries :=
  Except.ok ((rustLines input).foldl processLine [])

/-- The preamble loop of `parse_str`: push `line + "\n"` while the line
is a comment line, break at the first line that is not. -/
def preLoop : List Str → Str
  | [] => []
  | l :: ls => if isCommentLine l then l ++ '\n' :: preLoop ls else []

/-- The document `parse_str` builds (path empty, preamble from the
leading comment lines, plugins from `parse_plugins`). -/
def parseDoc (s : Str) : ToolVersions :=
  { path := []
    pre := preLoop (rustLines s)
    plugins := (rustLines s).foldl processLine [] }

/-- `ToolVersions::parse_str` (the `Result` layer mirrors the source's
`Ok(Self { .. })`; `parse_plugins(s)?` cannot fail). -/
def parse_str (s : Str) : Except Str ToolVersions :=
  (parse_plugins s).map (fun ps =>
    { path := [], pre := preLoop (rustLines s), plugins := ps })

/-- `ToolVersions::from_file`: the result of `read_to_string(path)` is
passed in explicitly (`.error` = the I/O failure case). -/
def from_file (path : Str) (contents : Except Str Str) : Except Str ToolVersions :=
  contents.bind (fun s => (parse_str s).map (fun d => { d with path := path }))

/-- `ToolVersions::init`. -/
def ToolVersions.init (filename : Str) : ToolVersions :=
  { path := filename, pre := [], plugins := [] }

/-- `versions.join(" ")`: the pieces separated by single spaces. -/
def joinSp : List Str → Str
  | [] => []
  | [v] => v
  | v :: vs => v ++ ' ' :: joinSp vs

/-- `format!("{} {}{}", plugin, tv.versions.join(" "), tv.post)`. -/
def renderEntry (e : Str × ToolVersionPlugin) : Str :=
  e.1 ++ ' ' :: (joinSp e.2.versions ++ e.2.post)

/-- `ToolVersions::dump`: preamble, then every entry in order, then
`trim_end` and one `'\n'`. -/
def dump (d : ToolVersions) : Str :=
  trimEnd (d.plugins.foldl (fun s e => s ++ renderEntry e) d.pre) ++ ['\n']

/-- First index of a key in the map (`IndexMap` key position). -/
def findKeyIdx : Entries → Str → Option Nat
  | [], _ => none
  | e :: es, k => if e.1 = k then some 0 else (findKeyIdx es k).map (· + 1)

/-- `IndexMap::remove`, which the indexmap crate defines as
`swap_remove`: swap the last entry into the removed slot, then pop. -/
def swapRemove (m : Entries) (k : Str) : Entries :=
  match findKeyIdx m k with
  | none => m
  | some i =>
    match m.getLast? with
    | none => m
    | some lastE => (m.set i lastE).dropLast

/-- `ToolVersions::remove_plugin`. -/
def remove_plugin (d : ToolVersions) (plugin : Str) : ToolVersions :=
  { d with plugins := swapRemove d.plugins plugin }

def containsKey : Entries → Str → Bool
  | [], _ => false
  | e :: es, k => e.1 = k || containsKey es k

/-- Key lookup (value of the unique slot with this key). -/
def lookupKey : Entries → Str → Option ToolVersionPlugin
  | [], _ => none
  | e :: es, k => if e.1 = k then some e.2 else lookupKey es k

/-- `plugins.entry(k).or_default()`: ensure the key exists, a fresh entry
getting `ToolVersionPlugin::default()` (empty versions, empty post) at
the end of the order. -/
def ensureKey (m : Entries) (k : Str) : Entries :=
  if containsKey m k then m else m ++ [(k, ⟨[], []⟩)]

/-- In-place mutation of the slot holding key `k`. -/
def modifyKey (m : Entries) (k : Str) (f : ToolVersionPlugin → ToolVersionPlugin) : Entries :=
  m.map (fun e => if e.1 = k then (e.1, f e.2) else e)

/-- `ToolVersions::add_version`:
`get_or_create_plugin(plugin).versions.push(version)`. -/
def add_version (d : ToolVersions) (plugin version : Str) : ToolVersions :=
  { d with
    plugins := modifyKey (ensureKey d.plugins plugin) plugin
      (fun tv => { tv with versions := tv.versions ++ [version] }) }

/-- `ToolVersions::replace_versions`: clear the (created-if-needed)
entry's versions, then `add_version` each new version in order. -/
def replace_versions (d : ToolVersions) (plugin : Str) (versions : List Str) : ToolVersions :=
  versions.foldl (fun d v => add_version d plugin v)
    { d with
      plugins := modifyKey (ensureKey d.plugins plugin) plugin
        (fun tv => { tv with versions := [] }) }

/-- Keys of the map in iteration order. -/
def keysOf (m : Entries) : List Str := m.map (fun e => e.1)

/-- Convert a Lean string literal to the `List Char` representation. -/
def str (s : String) : Str := s.data

/-- Concatenation of the rendered entries, in iteration order (what the
entry loop of `dump` appends after the preamble). -/
def renderJoin (m : Entries) : Str := (m.map renderEntry).flatten

/-- The serializer as the spec words it (§4.2): start with the preamble
verbatim; for each entry in insertion order emit
`"{name} {versions joined by single spaces}{trailingComment}"` (the
space after the name is emitted even when `versions` is empty); trim all
trailing whitespace from the accumulated string and append exactly one
newline. -/
def dump_spec (d : ToolVersions) : Str :=
  trimEnd (d.pre ++
    (d.plugins.map (fun e => e.1 ++ [' '] ++ joinSp e.2.versions ++ e.2.post)).flatten)
    ++ ['\n']

/-- The name extraction of the entry branch of `parse_plugins`, applied
to one line: `none` for comment lines and for lines with no token. -/
def entryNameOf (line : Str) : Option Str :=
  if isCommentLine line then none
  else
    match splitWhitespace (splitOnceHash line).1 with
    | [] => none
    | t :: _ => some (trimEndColons t)

/-- The entry value built by the entry branch of `parse_plugins` for one
line: the remaining tokens and the post built from the comment segment. -/
def pluginOfLine (line : Str) : ToolVersionPlugin :=
  ⟨(splitWhitespace (splitOnceHash line).1).tail, mkPost (splitOnceHash line).2⟩

/-- The tool names of the entry lines, in textual order (with repeats). -/
def entryNames (lines : List Str) : List Str := lines.filterMap entryNameOf

/-- Keep the first occurrence of each element not yet in `seen`. -/
def dedupFirstAux : List Str → List Str → List Str
  | _, [] => []
  | seen, x :: xs =>
    if x ∈ seen then dedupFirstAux seen xs else x :: dedupFirstAux (x :: seen) xs

/-- First-occurrence deduplication: the order in which an
insertion-ordered map meets fresh keys. -/
def dedupFirst (xs : List Str) : List Str := dedupFirstAux [] xs

/-- A line of a text in canonical form: either a comment-only line or an
entry line `name versions...` with an optional inline comment. -/
inductive CLine where
  | comment (raw : Str)
  | entry (name : Str) (versions : List Str) (inline : Option Str)
deriving Repr, DecidableEq

/-- Text a canonical entry line carries after the version list: nothing,
or a space, `#`, and the inline comment. -/
def inlineTail : Option Str → Str
  | none => []
  | some cc => ' ' :: '#' :: cc

/-- The `post` field the parser stores for a canonical entry line. -/
def postOfInline : Option Str → Str
  | none => ['\n']
  | some cc => ' ' :: '#' :: (cc ++ ['\n'])

/-- A canonical line without its final newline. -/
def lineContent : CLine → Str
  | .comment raw => raw
  | .entry n vs c => n ++ ' ' :: (joinSp vs ++ inlineTail c)

/-- A canonical line, final newline included. -/
def renderCLine (l : CLine) : Str := lineContent l ++ ['\n']

/-- The text of a list of canonical lines. -/
def renderLines (ls : List CLine) : Str := (ls.map renderCLine).flatten

def isCommentCLine : CLine → Bool
  | .comment _ => true
  | .entry _ _ _ => false

/-- A well-formed token: nonempty, no whitespace, no `'#'`. -/
def tokenOk (t : Str) : Bool :=
  !t.isEmpty && t.all (fun c => !rustIsWhitespace c && c ≠ '#')

/-- Nonempty and the final character is not whitespace. -/
def lastNotWs (s : Str) : Bool :=
  match s.reverse with
  | [] => false
  | c :: _ => !rustIsWhitespace c

/-- A well-formed inline comment: nonempty, no newline, and not ending
in whitespace. -/
def inlineOk (cc : Str) : Bool :=
  !cc.isEmpty && cc.all (fun d => d ≠ '\n') && lastNotWs cc

/-- A well-formed comment-only line: first non-whitespace character is
`'#'`, no newline, not ending in whitespace. -/
def rawOk (raw : Str) : Bool :=
  isCommentLine raw && raw.all (fun d => d ≠ '\n') && lastNotWs raw

/-- A well-formed tool name: a token not ending in `':'`. -/
def nameOk (n : Str) : Bool :=
  tokenOk n &&
    match n.reverse with
    | [] => false
    | c :: _ => c ≠ ':'

/-- Well-formedness of one canonical line.  An entry line must carry at
least one version or an inline comment (a bare `name` line would gain or
lose a trailing space across a round trip). -/
def clineOk : CLine → Bool
  | .comment raw => rawOk raw
  | .entry n vs c =>
    nameOk n && vs.all tokenOk &&
      match c with
      | none => !vs.isEmpty
      | some cc => inlineOk cc

/-- The entry names of a list of canonical lines, in order. -/
def namesOfLines : List CLine → List Str :=
  List.filterMap (fun l =>
    match l with
    | .entry n _ _ => some n
    | .comment _ => none)

/-- No element occurs twice. -/
def distinctKeys : List Str → Bool
  | [] => true
  | k :: ks => !(decide (k ∈ ks)) && distinctKeys ks

/-- Canonical form of a list of lines: nonempty, every line well formed,
and no duplicate tool names. -/
def canonicalLines (ls : List CLine) : Bool :=
  !ls.isEmpty && ls.all clineOk && distinctKeys (namesOfLines ls)

/-- Some entry line of the text carries a tool name with a trailing
`':'` (the claim's "trailing colons on tool names"). -/
def hasTrailingColons (s : Str) : Bool :=
  (rustLines s).any (fun line =>
    if isCommentLine line then false
    else
      match splitWhitespace (splitOnceHash line).1 with
      | [] => false
      | t :: _ =>
        match t.reverse with
        | ':' :: _ => true
        | _ => false)

/-- The text ends with exactly one newline directly after a
non-whitespace character (so it has no trailing blank lines and no
trailing whitespace at the very end). -/
def noTrailingBlank (s : Str) : Bool :=
  match s.reverse with
  | '\n' :: c :: _ => !rustIsWhitespace c
  | _ => false

/-- Some tool name occurs on more than one entry line. -/
def hasDuplicateNames (s : Str) : Bool :=
  !distinctKeys (entryNames (rustLines s))

/-- The spec's leading-comment-block example (§8), as canonical lines. -/
def exCanonical : List CLine :=
  [.comment (str "# intro comment"),
   .entry (str "python") [str "3.11.0", str "3.10.0"]
     (some (str " some comment # more comment")),
   .comment (str "#shellcheck 0.9.0"),
   .entry (str "shfmt") [str "3.6.0"] none,
   .comment (str "# tail comment")]

/-! ### Basic lemmas about the string helpers -/

theorem splitNl_ne_nil (s : Str) : splitNl s ≠ [] := by
  induction s with
  | nil => simp [splitNl]
  | cons c rest ih =>
    simp only [splitNl]
    split
    · simp
    · match h : splitNl rest with
      | [] => simp
      | l :: ls => simp

theorem splitNl_cons_nl (s : Str) : splitNl ('\n' :: s) = [] :: splitNl s := by
  simp [splitNl]

theorem splitNl_cons_of_ne (c : Char) (s : Str) (hc : ¬(c = '\n')) (l : Str)
    (ls : List Str) (h : splitNl s = l :: ls) :
    splitNl (c :: s) = (c :: l) :: ls := by
  simp only [splitNl, if_neg hc, h]

theorem splitNl_length (s : Str) : (splitNl s).length = s.count '\n' + 1 := by
  induction s with
  | nil => simp [splitNl]
  | cons c rest ih =>
    by_cases hc : c = '\n'
    · subst c
      rw [splitNl_cons_nl]
      simp [List.count_cons, ih]
    · match h : splitNl rest with
      | [] => exact absurd h (splitNl_ne_nil rest)
      | l :: ls =>
        rw [splitNl_cons_of_ne c rest hc l ls h]
        rw [h] at ih
        simp only [List.length_cons] at ih ⊢
        rw [List.count_cons]
        simp [hc, ih]

theorem splitNl_no_nl (l : Str) (h : '\n' ∉ l) : splitNl l = [l] := by
  induction l with
  | nil => simp [splitNl]
  | cons c rest ih =>
    have hc : ¬(c = '\n') := fun hc => h (hc ▸ List.mem_cons_self c rest)
    exact splitNl_cons_of_ne c rest hc rest []
      (ih (fun hm => h (List.mem_cons_of_mem c hm)))

theorem splitNl_append_no_nl (l rest : Str) (h : '\n' ∉ l) :
    splitNl (l ++ '\n' :: rest) = l :: splitNl rest := by
  induction l with
  | nil => simp [splitNl_cons_nl]
  | cons c cs ih =>
    have hc : ¬(c = '\n') := fun hc => h (hc ▸ List.mem_cons_self c cs)
    rw [List.cons_append]
    exact splitNl_cons_of_ne c _ hc cs (splitNl rest)
      (ih (fun hm => h (List.mem_cons_of_mem c hm)))

theorem splitNl_append_ends_nl (s t : Str) (h : s.getLast? = some '\n') :
    splitNl (s ++ t) = (splitNl s).dropLast ++ splitNl t := by
  induction s with
  | nil => simp at h
  | cons c s' ih =>
    match s' with
    | [] =>
      simp only [List.getLast?_singleton, Option.some.injEq] at h
      subst c
      rw [List.singleton_append, splitNl_cons_nl]
      simp [splitNl]
    | c2 :: s'' =>
      have h' : (c2 :: s'').getLast? = some '\n' := by
        rwa [List.getLast?_cons_cons] at h
      have ihh := ih h'
      by_cases hc : c = '\n'
      · subst c
        rw [List.cons_append, splitNl_cons_nl, splitNl_cons_nl, ihh,
          List.dropLast_cons_of_ne_nil (splitNl_ne_nil _)]
        simp
      · have hlen : 2 ≤ (splitNl (c2 :: s'')).length := by
          rw [splitNl_length]
          have hmem : '\n' ∈ c2 :: s'' := by
            obtain ⟨hne, hx⟩ := List.mem_getLast?_eq_getLast
              (x := '\n') (l := c2 :: s'') (by simp [h', Option.mem_def])
            exact hx ▸ List.getLast_mem hne
          have := List.count_pos_iff.mpr hmem
          omega
        match hsp : splitNl (c2 :: s'') with
        | [] => exact absurd hsp (splitNl_ne_nil _)
        | [x] => rw [hsp] at hlen; simp at hlen
        | x :: y :: xs =>
          rw [hsp] at ihh
          have hx : splitNl ((c2 :: s'') ++ t) = x :: ((y :: xs).dropLast ++ splitNl t) := by
            rw [ihh, List.dropLast_cons_of_ne_nil (by simp)]
            simp
          rw [List.cons_append, splitNl_cons_of_ne c _ hc _ _ hx,
            splitNl_cons_of_ne c _ hc _ _ hsp,
            show ((c :: x) :: y :: xs).dropLast = (c :: x) :: (y :: xs).dropLast from
              List.dropLast_cons_of_ne_nil (by simp),
            List.cons_append]

theorem stripCr_no_cr (l : Str) (h : l.getLast? ≠ some '\r') : stripCr l = l := by
  unfold stripCr
  split
  · next rest heq =>
    exfalso
    apply h
    rw [← List.head?_reverse, heq]
    rfl
  · rfl

theorem splitNl_self_decomp (s : Str) (h : s.getLast? = some '\n') :
    splitNl s = (splitNl s).dropLast ++ [[]] := by
  have := splitNl_append_ends_nl s [] h
  simpa [splitNl] using this

theorem splitNl_flatten (ls : List Str) (h : ∀ l ∈ ls, '\n' ∉ l) :
    splitNl ((ls.map (fun l => l ++ ['\n'])).flatten) = ls ++ [[]] := by
  induction ls with
  | nil => simp [splitNl]
  | cons l ls ih =>
    have h1 : '\n' ∉ l := h l (List.mem_cons_self l ls)
    have h2 : ∀ x ∈ ls, '\n' ∉ x := fun x hx => h x (List.mem_cons_of_mem l hx)
    simp only [List.map_cons, List.flatten_cons, List.append_assoc,
      List.singleton_append]
    rw [splitNl_append_no_nl l _ h1, ih h2]
    rfl

theorem rustLines_flatten (ls : List Str)
    (h : ∀ l ∈ ls, '\n' ∉ l ∧ l.getLast? ≠ some '\r') :
    rustLines ((ls.map (fun l => l ++ ['\n'])).flatten) = ls := by
  unfold rustLines
  rw [splitNl_flatten ls (fun l hl => (h l hl).1), List.getLast?_concat,
    if_pos rfl, List.dropLast_concat]
  calc List.map stripCr ls
      = List.map (fun l => l) ls :=
        List.map_congr_left (fun l hl => stripCr_no_cr l (h l hl).2)
    _ = ls := List.map_id' ls

theorem rustLines_append_line (s c : Str) (h0 : s = [] ∨ s.getLast? = some '\n')
    (h2 : '\n' ∉ c) (h3 : c.getLast? ≠ some '\r') :
    rustLines (s ++ (c ++ ['\n'])) = rustLines s ++ [c] := by
  rcases h0 with rfl | hend
  · have : rustLines (c ++ ['\n']) = [c] := by
      have := rustLines_flatten [c] (by
        intro l hl
        simp only [List.mem_singleton] at hl
        subst l
        exact ⟨h2, h3⟩)
      simpa using this
    simpa using this
  · obtain ⟨X, hX⟩ : ∃ X, splitNl s = X ++ [[]] :=
      ⟨(splitNl s).dropLast, splitNl_self_decomp s hend⟩
    have hXd : (splitNl s).dropLast = X := by rw [hX, List.dropLast_concat]
    have hsplit : splitNl (s ++ (c ++ ['\n'])) = X ++ [c, []] := by
      rw [splitNl_append_ends_nl s _ hend, hXd,
        show c ++ ['\n'] = c ++ '\n' :: [] by rfl, splitNl_append_no_nl c _ h2]
      rfl
    unfold rustLines
    rw [hsplit, hX]
    have g1 : (X ++ [c, []]).getLast? = some ([] : Str) := by
      rw [show X ++ [c, []] = (X ++ [c]) ++ [([] : Str)] by simp,
        List.getLast?_concat]
    have g3 : (X ++ [c, []]).dropLast = X ++ [c] := by
      rw [show X ++ [c, []] = (X ++ [c]) ++ [([] : Str)] by simp,
        List.dropLast_concat]
    rw [g1, if_pos rfl, g3, List.getLast?_concat, if_pos rfl,
      List.dropLast_concat, List.map_append]
    simp [stripCr_no_cr c h3]

theorem dropWhile_head_false {α : Type} (p : α → Bool) (l : List α) :
    ∀ c cs, l.dropWhile p = c :: cs → p c = false := by
  induction l with
  | nil => intro c cs h; simp [List.dropWhile] at h
  | cons x xs ih =>
    intro c cs h
    rw [List.dropWhile_cons] at h
    split at h
    · exact ih c cs h
    · next hx =>
      injection h with h1 h2
      subst h1
      simpa using hx

theorem trimEnd_getLast_not_ws (u : Str) (c : Char)
    (h : (trimEnd u).getLast? = some c) : rustIsWhitespace c = false := by
  unfold trimEnd at h
  rw [← List.head?_reverse, List.reverse_reverse] at h
  match hd : (u.reverse.dropWhile rustIsWhitespace) with
  | [] => rw [hd] at h; simp at h
  | x :: xs =>
    rw [hd] at h
    simp only [List.head?_cons, Option.some.injEq] at h
    subst c
    exact dropWhile_head_false rustIsWhitespace u.reverse x xs hd

theorem trimEnd_of_lastNotWs (t : Str) (h : lastNotWs t = true) : trimEnd t = t := by
  unfold lastNotWs at h
  unfold trimEnd
  match hrev : t.reverse with
  | [] => rw [hrev] at h; simp at h
  | c :: rest =>
    rw [hrev] at h
    simp only [Bool.not_eq_true'] at h
    rw [List.dropWhile_cons, if_neg (by simp [h]), ← hrev,
      List.reverse_reverse]

theorem trimEnd_append_nl (body : Str) (h : lastNotWs body = true) :
    trimEnd (body ++ ['\n']) = body := by
  unfold lastNotWs at h
  unfold trimEnd
  rw [List.reverse_append]
  match hrev : body.reverse with
  | [] => rw [hrev] at h; simp at h
  | c :: rest =>
    rw [hrev] at h
    simp only [Bool.not_eq_true'] at h
    show (List.dropWhile rustIsWhitespace
      ((['\n'] : Str).reverse ++ c :: rest)).reverse = body
    rw [show (['\n'] : Str).reverse ++ c :: rest = '\n' :: c :: rest by rfl,
      List.dropWhile_cons, if_pos (by decide), List.dropWhile_cons,
      if_neg (by simp [h]), ← hrev, List.reverse_reverse]

theorem lastNotWs_append (u v : Str) (h : lastNotWs v = true) :
    lastNotWs (u ++ v) = true := by
  unfold lastNotWs at h ⊢
  rw [List.reverse_append]
  match hrev : v.reverse with
  | [] => rw [hrev] at h; simp at h
  | c :: rest => rw [hrev] at h; simpa using h

/-! ### Tokenization lemmas -/

theorem tokenOk_ne_nil (t : Str) (h : tokenOk t = true) : t ≠ [] := by
  unfold tokenOk at h
  simp only [Bool.and_eq_true, Bool.not_eq_true'] at h
  exact fun hnil => by simp [hnil] at h

theorem tokenOk_no_ws (t : Str) (h : tokenOk t = true) :
    ∀ c ∈ t, rustIsWhitespace c = false := by
  unfold tokenOk at h
  simp only [Bool.and_eq_true, List.all_eq_true] at h
  intro c hc
  have := h.2 c hc
  simp only [Bool.and_eq_true, Bool.not_eq_true'] at this
  exact this.1

theorem tokenOk_no_hash (t : Str) (h : tokenOk t = true) : '#' ∉ t := by
  unfold tokenOk at h
  simp only [Bool.and_eq_true, List.all_eq_true] at h
  intro hc
  have := h.2 '#' hc
  simp at this

theorem splitWsAux_token (t : Str) (ht : ∀ c ∈ t, rustIsWhitespace c = false) :
    ∀ s acc, splitWsAux (t ++ s) acc = splitWsAux s (t.reverse ++ acc) := by
  induction t with
  | nil => intro s acc; simp
  | cons c cs ih =>
    intro s acc
    have hc : rustIsWhitespace c = false := ht c (List.mem_cons_self c cs)
    rw [List.cons_append]
    show splitWsAux (c :: (cs ++ s)) acc = _
    rw [show splitWsAux (c :: (cs ++ s)) acc =
        if rustIsWhitespace c then
          (if acc = [] then splitWsAux (cs ++ s) []
           else acc.reverse :: splitWsAux (cs ++ s) [])
        else splitWsAux (cs ++ s) (c :: acc) from rfl]
    rw [if_neg (by simp [hc])]
    rw [ih (fun x hx => ht x (List.mem_cons_of_mem c hx)) s (c :: acc)]
    simp

theorem splitWsAux_stop (s tok : Str) (htok : ¬(tok = [])) (c : Char)
    (hc : rustIsWhitespace c = true) :
    splitWsAux (c :: s) tok = tok.reverse :: splitWsAux s [] := by
  rw [show splitWsAux (c :: s) tok =
      if rustIsWhitespace c then
        (if tok = [] then splitWsAux s [] else tok.reverse :: splitWsAux s [])
      else splitWsAux s (c :: tok) from rfl]
  rw [if_pos hc, if_neg htok]

theorem splitWsAux_ws_nil (s : Str) (c : Char) (hc : rustIsWhitespace c = true) :
    splitWsAux (c :: s) [] = splitWsAux s [] := by
  rw [show splitWsAux (c :: s) [] =
      if rustIsWhitespace c then
        (if ([] : Str) = [] then splitWsAux s []
         else List.reverse ([] : Str) :: splitWsAux s [])
      else splitWsAux s [c] from rfl]
  rw [if_pos hc, if_pos rfl]

theorem splitWhitespace_token_sep (t : Str) (ht : tokenOk t = true) (s : Str) :
    splitWhitespace (t ++ ' ' :: s) = t :: splitWhitespace s := by
  unfold splitWhitespace
  rw [splitWsAux_token t (tokenOk_no_ws t ht) (' ' :: s) [], List.append_nil,
    splitWsAux_stop s t.reverse (by simp [tokenOk_ne_nil t ht]) ' ' (by decide),
    List.reverse_reverse]

theorem splitWhitespace_token_end (t : Str) (ht : tokenOk t = true) :
    splitWhitespace t = [t] := by
  have h1 : splitWhitespace (t ++ []) = [t] := by
    unfold splitWhitespace
    rw [splitWsAux_token t (tokenOk_no_ws t ht) [] [], List.append_nil]
    rw [show splitWsAux [] t.reverse =
        if t.reverse = [] then [] else [t.reverse.reverse] from rfl]
    rw [if_neg (by simp [tokenOk_ne_nil t ht]), List.reverse_reverse]
  simpa using h1

theorem splitWhitespace_joinSp_sep (vs : List Str) (h : vs.all tokenOk = true)
    (s : Str) :
    splitWhitespace (joinSp vs ++ ' ' :: s) = vs ++ splitWhitespace s := by
  induction vs with
  | nil =>
    show splitWhitespace (' ' :: s) = splitWhitespace s
    unfold splitWhitespace
    exact splitWsAux_ws_nil s ' ' (by decide)
  | cons v vs ih =>
    simp only [List.all_cons, Bool.and_eq_true] at h
    match vs with
    | [] =>
      show splitWhitespace (v ++ ' ' :: s) = v :: splitWhitespace s
      exact splitWhitespace_token_sep v h.1 s
    | v2 :: vs2 =>
      show splitWhitespace ((v ++ ' ' :: joinSp (v2 :: vs2)) ++ ' ' :: s) = _
      rw [List.append_assoc, List.cons_append,
        splitWhitespace_token_sep v h.1 (joinSp (v2 :: vs2) ++ ' ' :: s),
        ih h.2]
      rfl

theorem splitWhitespace_joinSp_end (vs : List Str) (h : vs.all tokenOk = true) :
    splitWhitespace (joinSp vs) = vs := by
  match vs with
  | [] => rfl
  | [v] =>
    simp only [List.all_cons, Bool.and_eq_true] at h
    exact splitWhitespace_token_end v h.1
  | v :: v2 :: vs2 =>
    simp only [List.all_cons, Bool.and_eq_true] at h
    show splitWhitespace (v ++ ' ' :: joinSp (v2 :: vs2)) = _
    rw [splitWhitespace_token_sep v h.1 (joinSp (v2 :: vs2)),
      splitWhitespace_joinSp_end (v2 :: vs2) (by simp [h.2.1, h.2.2])]

theorem joinSp_mem (vs : List Str) (x : Char) (hx : x ∈ joinSp vs) :
    x = ' ' ∨ ∃ v ∈ vs, x ∈ v := by
  match vs with
  | [] => simp [joinSp] at hx
  | [v] => exact Or.inr ⟨v, List.mem_singleton.mpr rfl, hx⟩
  | v :: v2 :: vs2 =>
    rw [show joinSp (v :: v2 :: vs2) = v ++ ' ' :: joinSp (v2 :: vs2) from rfl]
      at hx
    rcases List.mem_append.mp hx with h1 | h2
    · exact Or.inr ⟨v, List.mem_cons_self v _, h1⟩
    · rcases List.mem_cons.mp h2 with rfl | h3
      · exact Or.inl rfl
      · rcases joinSp_mem (v2 :: vs2) x h3 with h4 | ⟨v', hv', hxv'⟩
        · exact Or.inl h4
        · exact Or.inr ⟨v', List.mem_cons_of_mem v hv', hxv'⟩

/-! ### splitOnce, trimEndColons and isCommentLine lemmas -/

theorem splitOnce_no_hash (l : Str) (h : '#' ∉ l) : splitOnce l = none := by
  induction l with
  | nil => rfl
  | cons c rest ih =>
    have hc : ¬(c = '#') := fun hc => h (hc ▸ List.mem_cons_self c rest)
    unfold splitOnce
    rw [if_neg hc, ih (fun hm => h (List.mem_cons_of_mem c hm))]
    rfl

theorem splitOnce_hash (a b : Str) (h : '#' ∉ a) :
    splitOnce (a ++ '#' :: b) = some (a, b) := by
  induction a with
  | nil => simp [splitOnce]
  | cons c rest ih =>
    have hc : ¬(c = '#') := fun hc => h (hc ▸ List.mem_cons_self c rest)
    rw [List.cons_append]
    unfold splitOnce
    rw [if_neg hc, ih (fun hm => h (List.mem_cons_of_mem c hm))]
    rfl

theorem splitOnceHash_no_hash (l : Str) (h : '#' ∉ l) : splitOnceHash l = (l, []) := by
  unfold splitOnceHash
  rw [splitOnce_no_hash l h]

theorem splitOnceHash_hash (a b : Str) (h : '#' ∉ a) :
    splitOnceHash (a ++ '#' :: b) = (a, b) := by
  unfold splitOnceHash
  rw [splitOnce_hash a b h]

theorem trimEndColons_of_ne (n : Str) (c : Char) (rest : Str)
    (hrev : n.reverse = c :: rest) (hc : ¬(c = ':')) : trimEndColons n = n := by
  unfold trimEndColons
  rw [hrev, List.dropWhile_cons, if_neg (by simp [hc]), ← hrev,
    List.reverse_reverse]

theorem nameOk_trimEndColons (n : Str) (h : nameOk n = true) :
    trimEndColons n = n := by
  unfold nameOk at h
  simp only [Bool.and_eq_true] at h
  match hrev : n.reverse with
  | [] => rw [hrev] at h; simp at h
  | c :: rest =>
    rw [hrev] at h
    have hc : ¬(c = ':') := by
      have := h.2
      simp only [decide_eq_true_eq] at this
      exact this
    exact trimEndColons_of_ne n c rest hrev hc

theorem isCommentLine_of_head (c : Char) (cs : Str)
    (hws : rustIsWhitespace c = false) (hc : ¬(c = '#')) :
    isCommentLine (c :: cs) = false := by
  unfold isCommentLine trimStart
  rw [List.dropWhile_cons, if_neg (by simp [hws])]
  split
  · next heq =>
    injection heq with h1 _
    exact absurd h1 hc
  · rfl

/-! ### Map operation lemmas -/

theorem list_eq_dropLast_append {α : Type} (l : List α) (e : α)
    (h : l.getLast? = some e) : l = l.dropLast ++ [e] := by
  have hne : l ≠ [] := by
    intro hnil
    subst hnil
    simp at h
  rw [List.getLast?_eq_getLast_of_ne_nil hne] at h
  injection h with h1
  exact h1 ▸ (List.dropLast_append_getLast hne).symm


theorem exists_getLast? {α : Type} (l : List α) (h : l ≠ []) :
    ∃ e, l.getLast? = some e := by
  match l with
  | [] => exact absurd rfl h
  | a :: as =>
    induction as generalizing a with
    | nil => exact ⟨a, List.getLast?_singleton a⟩
    | cons b bs ih =>
      obtain ⟨e, he⟩ := ih b (by simp)
      exact ⟨e, by rw [List.getLast?_cons_cons]; exact he⟩

theorem containsKey_iff (m : Entries) (k : Str) :
    containsKey m k = true ↔ k ∈ keysOf m := by
  induction m with
  | nil => simp [containsKey, keysOf]
  | cons e es ih =>
    show (decide (e.1 = k) || containsKey es k) = true ↔ k ∈ e.1 :: keysOf es
    rw [Bool.or_eq_true, decide_eq_true_eq, List.mem_cons, ih]
    constructor
    · rintro (h | h)
      · exact Or.inl h.symm
      · exact Or.inr h
    · rintro (h | h)
      · exact Or.inl h.symm
      · exact Or.inr h

theorem insertIdx_fresh (m : Entries) (k : Str) (v : ToolVersionPlugin)
    (h : containsKey m k = false) : insertIdx m k v = m ++ [(k, v)] := by
  induction m with
  | nil => rfl
  | cons e es ih =>
    unfold containsKey at h
    simp only [Bool.or_eq_false_iff, decide_eq_false_iff_not] at h
    unfold insertIdx
    rw [if_neg h.1, ih h.2]
    rfl

theorem keysOf_insertIdx_mem (m : Entries) (k : Str) (v : ToolVersionPlugin)
    (h : containsKey m k = true) : keysOf (insertIdx m k v) = keysOf m := by
  induction m with
  | nil => simp [containsKey] at h
  | cons e es ih =>
    unfold containsKey at h
    unfold insertIdx
    by_cases he : e.1 = k
    · rw [if_pos he]
      rfl
    · rw [if_neg he]
      simp only [Bool.or_eq_true, decide_eq_true_eq] at h
      rcases h with h | h
      · exact absurd h he
      · show e.1 :: keysOf (insertIdx es k v) = e.1 :: keysOf es
        rw [ih h]

theorem lookupKey_insertIdx_self (m : Entries) (k : Str) (v : ToolVersionPlugin) :
    lookupKey (insertIdx m k v) k = some v := by
  induction m with
  | nil => simp [insertIdx, lookupKey]
  | cons e es ih =>
    unfold insertIdx
    by_cases he : e.1 = k
    · rw [if_pos he]
      unfold lookupKey
      rw [if_pos he]
    · rw [if_neg he]
      unfold lookupKey
      rw [if_neg he, ih]

theorem lookupKey_insertIdx_other (m : Entries) (k k' : Str)
    (v : ToolVersionPlugin) (h : ¬(k' = k)) :
    lookupKey (insertIdx m k v) k' = lookupKey m k' := by
  induction m with
  | nil =>
    unfold insertIdx lookupKey
    rw [if_neg (fun hk => h hk.symm)]
    rfl
  | cons e es ih =>
    unfold insertIdx
    by_cases he : e.1 = k
    · rw [if_pos he]
      unfold lookupKey
      by_cases he' : e.1 = k'
      · exact absurd (he'.symm.trans he) h
      · rw [if_neg he', if_neg he']
    · rw [if_neg he]
      unfold lookupKey
      by_cases he' : e.1 = k'
      · rw [if_pos he', if_pos he']
      · rw [if_neg he', if_neg he', ih]

theorem keysOf_appendToLastPost (m : Entries) (c : Str) :
    keysOf (appendToLastPost m c) = keysOf m := by
  induction m with
  | nil => rfl
  | cons e es ih =>
    match es with
    | [] => rfl
    | e2 :: es2 =>
      show keysOf (e :: appendToLastPost (e2 :: es2) c) = _
      show e.1 :: keysOf (appendToLastPost (e2 :: es2) c) = e.1 :: keysOf (e2 :: es2)
      rw [ih]

theorem appendToLastPost_ne_nil (m : Entries) (c : Str) (h : m ≠ []) :
    appendToLastPost m c ≠ [] := by
  match m with
  | [] => exact absurd rfl h
  | [e] => simp [appendToLastPost]
  | e :: e2 :: es => simp [appendToLastPost]

theorem appendToLastPost_eq (m : Entries) (c : Str) (e : Str × ToolVersionPlugin)
    (h : m.getLast? = some e) :
    appendToLastPost m c = m.dropLast ++ [(e.1, ⟨e.2.versions, e.2.post ++ c⟩)] := by
  induction m with
  | nil => simp at h
  | cons e0 es ih =>
    match es with
    | [] =>
      simp only [List.getLast?_singleton, Option.some.injEq] at h
      subst h
      rfl
    | e1 :: es1 =>
      rw [List.getLast?_cons_cons] at h
      show e0 :: appendToLastPost (e1 :: es1) c = _
      rw [ih h]
      conv_rhs => rw [List.dropLast_cons_of_ne_nil (show (e1 :: es1) ≠ [] by simp)]
      rw [List.cons_append]

theorem lookupKey_appendToLastPost_versions (m : Entries) (c : Str) (k : Str) :
    (lookupKey (appendToLastPost m c) k).map ToolVersionPlugin.versions =
      (lookupKey m k).map ToolVersionPlugin.versions := by
  induction m with
  | nil => rfl
  | cons e es ih =>
    match es with
    | [] =>
      show (lookupKey [(e.1, _)] k).map _ = (lookupKey [e] k).map _
      unfold lookupKey
      by_cases he : e.1 = k
      · rw [if_pos he, if_pos he]
        rfl
      · rw [if_neg he, if_neg he]
    | e2 :: es2 =>
      show (lookupKey (e :: appendToLastPost (e2 :: es2) c) k).map _ = _
      unfold lookupKey
      by_cases he : e.1 = k
      · rw [if_pos he, if_pos he]
      · rw [if_neg he, if_neg he, ih]

theorem renderJoin_append (a b : Entries) :
    renderJoin (a ++ b) = renderJoin a ++ renderJoin b := by
  simp [renderJoin]

theorem renderEntry_post_append (e : Str × ToolVersionPlugin) (c : Str) :
    renderEntry (e.1, ⟨e.2.versions, e.2.post ++ c⟩) = renderEntry e ++ c := by
  unfold renderEntry
  simp

theorem renderJoin_appendToLastPost (m : Entries) (c : Str) (h : m ≠ []) :
    renderJoin (appendToLastPost m c) = renderJoin m ++ c := by
  obtain ⟨e, he⟩ := exists_getLast? m h
  rw [appendToLastPost_eq m c e he, renderJoin_append,
    show renderJoin [(e.1, ⟨e.2.versions, e.2.post ++ c⟩)] =
      renderEntry (e.1, ⟨e.2.versions, e.2.post ++ c⟩) by simp [renderJoin],
    renderEntry_post_append]
  conv_rhs => rw [list_eq_dropLast_append m e he, renderJoin_append]
  simp [renderJoin]

theorem dump_foldl (m : Entries) (s0 : Str) :
    m.foldl (fun s e => s ++ renderEntry e) s0 = s0 ++ renderJoin m := by
  induction m generalizing s0 with
  | nil => simp [renderJoin]
  | cons e es ih =>
    rw [List.foldl_cons, ih]
    simp [renderJoin]

/-! ### processLine characterizations -/

theorem processLine_comment (m : Entries) (line : Str)
    (h : isCommentLine line = true) :
    processLine m line = appendToLastPost m (line ++ ['\n']) := by
  unfold processLine
  rw [if_pos h]

theorem processLine_name_some (m : Entries) (line : Str) (n : Str)
    (h : entryNameOf line = some n) :
    processLine m line = insertIdx m n (pluginOfLine line) := by
  unfold entryNameOf at h
  by_cases hcl : isCommentLine line
  · rw [if_pos hcl] at h
    exact absurd h (by simp)
  · rw [if_neg hcl] at h
    unfold processLine
    rw [if_neg hcl]
    match hsw : splitWhitespace (splitOnceHash line).1 with
    | [] => rw [hsw] at h; simp at h
    | t :: rest =>
      rw [hsw] at h
      simp only [Option.some.injEq] at h
      unfold pluginOfLine
      rw [hsw, ← h]
      rfl

theorem processLine_name_none (m : Entries) (line : Str)
    (h1 : isCommentLine line = false) (h2 : entryNameOf line = none) :
    processLine m line = m := by
  unfold entryNameOf at h2
  rw [if_neg (by simp [h1])] at h2
  unfold processLine
  rw [if_neg (by simp [h1])]
  match hsw : splitWhitespace (splitOnceHash line).1 with
  | [] => rfl
  | t :: rest => rw [hsw] at h2; simp at h2

/-! ### Canonical entry lines and processLine -/

theorem mkPost_ne_nil (p : Str) (h : ¬(p = [])) :
    mkPost p = ' ' :: '#' :: (p ++ ['\n']) := by
  match p with
  | [] => exact absurd rfl h
  | c :: rest => rfl

theorem clineOk_entry_name (n : Str) (vs : List Str) (c : Option Str)
    (h : clineOk (.entry n vs c) = true) : nameOk n = true := by
  unfold clineOk at h
  simp only [Bool.and_eq_true] at h
  exact h.1.1

theorem clineOk_entry_vs (n : Str) (vs : List Str) (c : Option Str)
    (h : clineOk (.entry n vs c) = true) : vs.all tokenOk = true := by
  unfold clineOk at h
  simp only [Bool.and_eq_true] at h
  exact h.1.2

theorem clineOk_entry_none (n : Str) (vs : List Str)
    (h : clineOk (.entry n vs none) = true) : vs.isEmpty = false := by
  unfold clineOk at h
  simp only [Bool.and_eq_true, Bool.not_eq_true'] at h
  exact h.2

theorem clineOk_entry_some (n : Str) (vs : List Str) (cc : Str)
    (h : clineOk (.entry n vs (some cc)) = true) : inlineOk cc = true := by
  unfold clineOk at h
  simp only [Bool.and_eq_true] at h
  exact h.2

theorem nameOk_tokenOk (n : Str) (h : nameOk n = true) : tokenOk n = true := by
  unfold nameOk at h
  simp only [Bool.and_eq_true] at h
  exact h.1

theorem inlineOk_ne_nil (cc : Str) (h : inlineOk cc = true) : ¬(cc = []) := by
  unfold inlineOk at h
  simp only [Bool.and_eq_true] at h
  intro hnil
  subst hnil
  simp at h

theorem entry_body_no_hash (n : Str) (vs : List Str) (tail : Str)
    (hn : tokenOk n = true) (hvs : vs.all tokenOk = true) (htail : '#' ∉ tail) :
    '#' ∉ n ++ ' ' :: (joinSp vs ++ tail) := by
  intro hmem
  rcases List.mem_append.mp hmem with h1 | h2
  · exact tokenOk_no_hash n hn h1
  · rcases List.mem_cons.mp h2 with he | h3
    · simp at he
    · rcases List.mem_append.mp h3 with h4 | h5
      · rcases joinSp_mem vs '#' h4 with h6 | ⟨v, hv, hxv⟩
        · simp at h6
        · exact tokenOk_no_hash v (List.all_eq_true.mp hvs v hv) hxv
      · exact htail h5

theorem processLine_entry_render (m : Entries) (n : Str) (vs : List Str)
    (c : Option Str) (hok : clineOk (.entry n vs c) = true) :
    processLine m (lineContent (.entry n vs c)) =
      insertIdx m n ⟨vs, postOfInline c⟩ := by
  have hn : nameOk n = true := clineOk_entry_name n vs c hok
  have hvs : vs.all tokenOk = true := clineOk_entry_vs n vs c hok
  have hnOk : tokenOk n = true := nameOk_tokenOk n hn
  cases n with
  | nil => simp [tokenOk] at hnOk
  | cons nc n' =>
    have hncws : rustIsWhitespace nc = false :=
      tokenOk_no_ws _ hnOk nc (List.mem_cons_self nc n')
    have hnchash : ¬(nc = '#') := fun hh =>
      tokenOk_no_hash _ hnOk (hh ▸ List.mem_cons_self nc n')
    have hcl : isCommentLine (lineContent (.entry (nc :: n') vs c)) = false := by
      show isCommentLine (nc :: (n' ++ ' ' :: (joinSp vs ++ inlineTail c))) = false
      exact isCommentLine_of_head nc _ hncws hnchash
    cases c with
    | none =>
      have hnohash : '#' ∉ lineContent (.entry (nc :: n') vs none) := by
        show '#' ∉ (nc :: n') ++ ' ' :: (joinSp vs ++ [])
        exact entry_body_no_hash (nc :: n') vs [] hnOk hvs (by simp)
      have h1 : splitOnceHash (lineContent (.entry (nc :: n') vs none)) =
          (lineContent (.entry (nc :: n') vs none), []) :=
        splitOnceHash_no_hash _ hnohash
      have hsw : splitWhitespace (lineContent (.entry (nc :: n') vs none)) =
          (nc :: n') :: vs := by
        show splitWhitespace ((nc :: n') ++ ' ' :: (joinSp vs ++ [])) = _
        rw [List.append_nil, splitWhitespace_token_sep _ hnOk,
          splitWhitespace_joinSp_end vs hvs]
      have hname : entryNameOf (lineContent (.entry (nc :: n') vs none)) =
          some (nc :: n') := by
        unfold entryNameOf
        rw [if_neg (by simp [hcl])]
        simp only [h1]
        rw [hsw]
        show some (trimEndColons (nc :: n')) = some (nc :: n')
        rw [nameOk_trimEndColons _ hn]
      have hplug : pluginOfLine (lineContent (.entry (nc :: n') vs none)) =
          ⟨vs, postOfInline none⟩ := by
        unfold pluginOfLine
        simp only [h1]
        rw [hsw]
        rfl
      rw [processLine_name_some m _ _ hname, hplug]
    | some cc =>
      have hccne : ¬(cc = []) := inlineOk_ne_nil cc (clineOk_entry_some _ _ _ hok)
      have hbody_no_hash : '#' ∉ (nc :: n') ++ ' ' :: (joinSp vs ++ [' ']) :=
        entry_body_no_hash (nc :: n') vs [' '] hnOk hvs (by simp)
      have heq : lineContent (.entry (nc :: n') vs (some cc)) =
          ((nc :: n') ++ ' ' :: (joinSp vs ++ [' '])) ++ '#' :: cc := by
        show (nc :: n') ++ ' ' :: (joinSp vs ++ (' ' :: '#' :: cc)) = _
        simp
      have h1 : splitOnceHash (lineContent (.entry (nc :: n') vs (some cc))) =
          ((nc :: n') ++ ' ' :: (joinSp vs ++ [' ']), cc) := by
        rw [heq]
        exact splitOnceHash_hash _ cc hbody_no_hash
      have hsw : splitWhitespace ((nc :: n') ++ ' ' :: (joinSp vs ++ [' '])) =
          (nc :: n') :: vs := by
        rw [splitWhitespace_token_sep _ hnOk,
          show (joinSp vs ++ [' '] : Str) = joinSp vs ++ ' ' :: [] by rfl,
          splitWhitespace_joinSp_sep vs hvs []]
        simp [splitWhitespace, splitWsAux]
      have hname : entryNameOf (lineContent (.entry (nc :: n') vs (some cc))) =
          some (nc :: n') := by
        unfold entryNameOf
        rw [if_neg (by simp [hcl])]
        simp only [h1]
        rw [hsw]
        show some (trimEndColons (nc :: n')) = some (nc :: n')
        rw [nameOk_trimEndColons _ hn]
      have hplug : pluginOfLine (lineContent (.entry (nc :: n') vs (some cc))) =
          ⟨vs, postOfInline (some cc)⟩ := by
        unfold pluginOfLine
        simp only [h1]
        rw [hsw, mkPost_ne_nil cc hccne]
        rfl
      rw [processLine_name_some m _ _ hname, hplug]

/-! ### Canonical line shape lemmas -/

theorem lastNotWs_token (t : Str) (ht : tokenOk t = true) : lastNotWs t = true := by
  unfold lastNotWs
  match hrev : t.reverse with
  | [] =>
    rw [List.reverse_eq_nil_iff] at hrev
    exact absurd hrev (tokenOk_ne_nil t ht)
  | c :: rest =>
    have hc : c ∈ t := by
      rw [← List.mem_reverse, hrev]
      exact List.mem_cons_self c rest
    simp [tokenOk_no_ws t ht c hc]

theorem lastNotWs_cons (x : Char) (u : Str) (h : u ≠ []) :
    lastNotWs (x :: u) = lastNotWs u := by
  unfold lastNotWs
  rw [List.reverse_cons]
  match hrev : u.reverse with
  | [] =>
    rw [List.reverse_eq_nil_iff] at hrev
    exact absurd hrev h
  | c :: rest => rfl

theorem joinSp_ne_nil (vs : List Str) (hvs : vs.all tokenOk = true)
    (h : vs ≠ []) : joinSp vs ≠ [] := by
  match vs with
  | [] => exact absurd rfl h
  | [v] =>
    simp only [List.all_cons, Bool.and_eq_true] at hvs
    exact tokenOk_ne_nil v hvs.1
  | v :: v2 :: vs2 =>
    show v ++ ' ' :: joinSp (v2 :: vs2) ≠ []
    simp

theorem lastNotWs_joinSp (vs : List Str) (hvs : vs.all tokenOk = true)
    (h : vs ≠ []) : lastNotWs (joinSp vs) = true := by
  match vs with
  | [] => exact absurd rfl h
  | [v] =>
    simp only [List.all_cons, Bool.and_eq_true] at hvs
    exact lastNotWs_token v hvs.1
  | v :: v2 :: vs2 =>
    simp only [List.all_cons, Bool.and_eq_true] at hvs
    show lastNotWs (v ++ ' ' :: joinSp (v2 :: vs2)) = true
    have hrec : lastNotWs (joinSp (v2 :: vs2)) = true :=
      lastNotWs_joinSp (v2 :: vs2) (by simp [hvs.2.1, hvs.2.2]) (by simp)
    rw [show (v ++ ' ' :: joinSp (v2 :: vs2) : Str) =
      (v ++ [' ']) ++ joinSp (v2 :: vs2) by simp]
    exact lastNotWs_append _ _ hrec

theorem rawOk_isCommentLine (raw : Str) (h : rawOk raw = true) :
    isCommentLine raw = true := by
  unfold rawOk at h
  simp only [Bool.and_eq_true] at h
  exact h.1.1

theorem rawOk_no_nl (raw : Str) (h : rawOk raw = true) : '\n' ∉ raw := by
  unfold rawOk at h
  simp only [Bool.and_eq_true, List.all_eq_true] at h
  intro hm
  have := h.1.2 '\n' hm
  simp at this

theorem rawOk_lastNotWs (raw : Str) (h : rawOk raw = true) :
    lastNotWs raw = true := by
  unfold rawOk at h
  simp only [Bool.and_eq_true] at h
  exact h.2

theorem inlineOk_no_nl (cc : Str) (h : inlineOk cc = true) : '\n' ∉ cc := by
  unfold inlineOk at h
  simp only [Bool.and_eq_true, List.all_eq_true] at h
  intro hm
  have := h.1.2 '\n' hm
  simp at this

theorem inlineOk_lastNotWs (cc : Str) (h : inlineOk cc = true) :
    lastNotWs cc = true := by
  unfold inlineOk at h
  simp only [Bool.and_eq_true] at h
  exact h.2

theorem tokenOk_no_nl (t : Str) (ht : tokenOk t = true) : '\n' ∉ t := by
  intro hm
  have := tokenOk_no_ws t ht '\n' hm
  simp [rustIsWhitespace] at this

theorem lineContent_lastNotWs (l : CLine) (h : clineOk l = true) :
    lastNotWs (lineContent l) = true := by
  match l with
  | .comment raw => exact rawOk_lastNotWs raw h
  | .entry n vs c =>
    have hvs : vs.all tokenOk = true := clineOk_entry_vs n vs c h
    match c with
    | none =>
      have hvne : vs ≠ [] := by
        have := clineOk_entry_none n vs h
        intro hnil
        subst hnil
        simp at this
      show lastNotWs (n ++ ' ' :: (joinSp vs ++ [])) = true
      rw [List.append_nil, show (n ++ ' ' :: joinSp vs : Str) =
        (n ++ [' ']) ++ joinSp vs by simp]
      exact lastNotWs_append _ _ (lastNotWs_joinSp vs hvs hvne)
    | some cc =>
      have hcc : inlineOk cc = true := clineOk_entry_some n vs cc h
      show lastNotWs (n ++ ' ' :: (joinSp vs ++ ' ' :: '#' :: cc)) = true
      rw [show (n ++ ' ' :: (joinSp vs ++ ' ' :: '#' :: cc) : Str) =
        (n ++ ' ' :: (joinSp vs ++ [' ', '#'])) ++ cc by simp]
      exact lastNotWs_append _ _ (inlineOk_lastNotWs cc hcc)

theorem lineContent_no_nl (l : CLine) (h : clineOk l = true) :
    '\n' ∉ lineContent l := by
  match l with
  | .comment raw => exact rawOk_no_nl raw h
  | .entry n vs c =>
    have hn : tokenOk n = true := nameOk_tokenOk n (clineOk_entry_name n vs c h)
    have hvs : vs.all tokenOk = true := clineOk_entry_vs n vs c h
    show '\n' ∉ n ++ ' ' :: (joinSp vs ++ inlineTail c)
    intro hm
    rcases List.mem_append.mp hm with h1 | h2
    · exact tokenOk_no_nl n hn h1
    · rcases List.mem_cons.mp h2 with he | h3
      · simp at he
      · rcases List.mem_append.mp h3 with h4 | h5
        · rcases joinSp_mem vs '\n' h4 with h6 | ⟨v, hv, hxv⟩
          · simp at h6
          · exact tokenOk_no_nl v (List.all_eq_true.mp hvs v hv) hxv
        · match c with
          | none => simp [inlineTail] at h5
          | some cc =>
            have hcc : inlineOk cc = true := clineOk_entry_some n vs cc h
            rcases List.mem_cons.mp h5 with he1 | h6
            · simp at he1
            · rcases List.mem_cons.mp h6 with he2 | h7
              · simp at he2
              · exact inlineOk_no_nl cc hcc h7

theorem lastNotWs_getLast_not (s : Str) (h : lastNotWs s = true) :
    s.getLast? ≠ some '\r' := by
  unfold lastNotWs at h
  intro hc
  match hrev : s.reverse with
  | [] =>
    rw [List.reverse_eq_nil_iff] at hrev
    subst hrev
    simp at hc
  | c :: rest =>
    rw [hrev] at h
    have : s.getLast? = some c := by rw [← List.head?_reverse, hrev]; rfl
    rw [this] at hc
    injection hc with hc1
    subst hc1
    simp [rustIsWhitespace] at h

theorem rustLines_renderLines (ls : List CLine) (h : ls.all clineOk = true) :
    rustLines (renderLines ls) = ls.map lineContent := by
  unfold renderLines
  rw [show ls.map renderCLine =
      (ls.map lineContent).map (fun l => l ++ ['\n']) by
    simp [renderCLine, Function.comp]]
  refine rustLines_flatten _ ?_
  intro l hl
  rw [List.mem_map] at hl
  obtain ⟨l0, hl0, rfl⟩ := hl
  have hok : clineOk l0 = true := List.all_eq_true.mp h l0 hl0
  exact ⟨lineContent_no_nl l0 hok,
    lastNotWs_getLast_not _ (lineContent_lastNotWs l0 hok)⟩

theorem isCommentLine_entry_content (n : Str) (vs : List Str) (c : Option Str)
    (hok : clineOk (.entry n vs c) = true) :
    isCommentLine (lineContent (.entry n vs c)) = false := by
  have hnOk : tokenOk n = true := nameOk_tokenOk n (clineOk_entry_name n vs c hok)
  match n, hnOk with
  | [], hnOk => simp [tokenOk] at hnOk
  | nc :: n', hnOk =>
    show isCommentLine (nc :: (n' ++ ' ' :: (joinSp vs ++ inlineTail c))) = false
    exact isCommentLine_of_head nc _
      (tokenOk_no_ws _ hnOk nc (List.mem_cons_self nc n'))
      (fun hh => tokenOk_no_hash _ hnOk (hh ▸ List.mem_cons_self nc n'))

theorem renderLines_append (a b : List CLine) :
    renderLines (a ++ b) = renderLines a ++ renderLines b := by
  simp [renderLines]

theorem preLoop_render (ls : List CLine) (h : ls.all clineOk = true) :
    preLoop (ls.map lineContent) = renderLines (ls.takeWhile isCommentCLine) := by
  induction ls with
  | nil => rfl
  | cons l ls ih =>
    simp only [List.all_cons, Bool.and_eq_true] at h
    match l with
    | .comment raw =>
      have hraw : isCommentLine raw = true := rawOk_isCommentLine raw h.1
      show preLoop (raw :: ls.map lineContent) = _
      rw [show preLoop (raw :: ls.map lineContent) =
        if isCommentLine raw then raw ++ '\n' :: preLoop (ls.map lineContent)
        else [] from rfl, if_pos hraw,
        show (CLine.comment raw :: ls).takeWhile isCommentCLine =
          CLine.comment raw :: ls.takeWhile isCommentCLine from rfl]
      rw [show renderLines (CLine.comment raw :: ls.takeWhile isCommentCLine) =
        renderCLine (.comment raw) ++
          renderLines (ls.takeWhile isCommentCLine) by simp [renderLines]]
      rw [ih h.2]
      show raw ++ '\n' :: renderLines (ls.takeWhile isCommentCLine) = _
      simp [renderCLine, lineContent]
    | .entry n vs c =>
      have hent : isCommentLine (lineContent (.entry n vs c)) = false :=
        isCommentLine_entry_content n vs c h.1
      show preLoop (lineContent (.entry n vs c) :: ls.map lineContent) = _
      rw [show preLoop (lineContent (.entry n vs c) :: ls.map lineContent) =
        if isCommentLine (lineContent (.entry n vs c)) then
          lineContent (.entry n vs c) ++ '\n' :: preLoop (ls.map lineContent)
        else [] from rfl, if_neg (by simp [hent]),
        show (CLine.entry n vs c :: ls).takeWhile isCommentCLine = [] from rfl]
      rfl

/-! ### Group invariant for the parser fold -/

theorem containsKey_false_iff (m : Entries) (k : Str) :
    containsKey m k = false ↔ ¬ k ∈ keysOf m := by
  rw [← containsKey_iff]
  cases containsKey m k <;> simp

theorem distinctKeys_cons (k : Str) (ks : List Str)
    (h : distinctKeys (k :: ks) = true) : ¬(k ∈ ks) ∧ distinctKeys ks = true := by
  unfold distinctKeys at h
  simp only [Bool.and_eq_true, Bool.not_eq_true'] at h
  exact ⟨of_decide_eq_false h.1, h.2⟩

theorem renderEntry_cline (n : Str) (vs : List Str) (c : Option Str) :
    renderEntry (n, ⟨vs, postOfInline c⟩) = renderCLine (.entry n vs c) := by
  match c with
  | none =>
    show n ++ ' ' :: (joinSp vs ++ ['\n']) =
      (n ++ ' ' :: (joinSp vs ++ [])) ++ ['\n']
    simp
  | some cc =>
    show n ++ ' ' :: (joinSp vs ++ (' ' :: '#' :: (cc ++ ['\n']))) =
      (n ++ ' ' :: (joinSp vs ++ (' ' :: '#' :: cc))) ++ ['\n']
    simp

theorem namesOfLines_append (a b : List CLine) :
    namesOfLines (a ++ b) = namesOfLines a ++ namesOfLines b := by
  simp [namesOfLines]

theorem namesOfLines_comments (cs : List CLine)
    (h : ∀ l ∈ cs, isCommentCLine l = true) : namesOfLines cs = [] := by
  induction cs with
  | nil => rfl
  | cons l ls ih =>
    match l with
    | .comment raw =>
      show namesOfLines ls = []
      exact ih (fun x hx => h x (List.mem_cons_of_mem _ hx))
    | .entry n vs c =>
      have := h (.entry n vs c) (List.mem_cons_self _ _)
      simp [isCommentCLine] at this

theorem foldl_groups (ls : List CLine) : ∀ m : Entries, m ≠ [] →
    ls.all clineOk = true → distinctKeys (namesOfLines ls) = true →
    (∀ x ∈ namesOfLines ls, containsKey m x = false) →
    renderJoin (List.foldl processLine m (ls.map lineContent)) =
        renderJoin m ++ renderLines ls ∧
      keysOf (List.foldl processLine m (ls.map lineContent)) =
        keysOf m ++ namesOfLines ls ∧
      List.foldl processLine m (ls.map lineContent) ≠ [] := by
  induction ls with
  | nil =>
    intro m hm _ _ _
    refine ⟨?_, ?_, hm⟩ <;> simp [renderLines, namesOfLines]
  | cons l ls ih =>
    intro m hm hall hdist hfresh
    simp only [List.all_cons, Bool.and_eq_true] at hall
    match l with
    | .comment raw =>
      have hraw : isCommentLine raw = true := rawOk_isCommentLine raw hall.1
      have hstep : processLine m (lineContent (.comment raw)) =
          appendToLastPost m (raw ++ ['\n']) := processLine_comment m raw hraw
      have hm' : appendToLastPost m (raw ++ ['\n']) ≠ [] :=
        appendToLastPost_ne_nil m _ hm
      have hkeys' : keysOf (appendToLastPost m (raw ++ ['\n'])) = keysOf m :=
        keysOf_appendToLastPost m _
      have hfresh' : ∀ x ∈ namesOfLines ls,
          containsKey (appendToLastPost m (raw ++ ['\n'])) x = false := by
        intro x hx
        rw [containsKey_false_iff, hkeys', ← containsKey_false_iff]
        exact hfresh x hx
      obtain ⟨h1, h2, h3⟩ := ih (appendToLastPost m (raw ++ ['\n'])) hm'
        hall.2 hdist hfresh'
      refine ⟨?_, ?_, ?_⟩
      · simp only [List.map_cons, List.foldl_cons]
        rw [hstep, h1, renderJoin_appendToLastPost m _ hm,
          show renderLines (CLine.comment raw :: ls) =
            (raw ++ ['\n']) ++ renderLines ls by
              simp [renderLines, renderCLine, lineContent]]
        simp
      · simp only [List.map_cons, List.foldl_cons]
        rw [hstep, h2, hkeys']
        rfl
      · simp only [List.map_cons, List.foldl_cons]
        rw [hstep]
        exact h3
    | .entry n vs c =>
      have hstep : processLine m (lineContent (.entry n vs c)) =
          insertIdx m n ⟨vs, postOfInline c⟩ :=
        processLine_entry_render m n vs c hall.1
      obtain ⟨hnot, hdist'⟩ := distinctKeys_cons n (namesOfLines ls) hdist
      have hfreshn : containsKey m n = false :=
        hfresh n (List.mem_cons_self n (namesOfLines ls))
      have hins : insertIdx m n ⟨vs, postOfInline c⟩ =
          m ++ [(n, ⟨vs, postOfInline c⟩)] := insertIdx_fresh m n _ hfreshn
      have hm' : (m ++ [(n, (⟨vs, postOfInline c⟩ : ToolVersionPlugin))]) ≠ [] := by
        simp
      have hkeys' : keysOf (m ++ [(n, (⟨vs, postOfInline c⟩ : ToolVersionPlugin))]) =
          keysOf m ++ [n] := by simp [keysOf]
      have hfresh' : ∀ x ∈ namesOfLines ls,
          containsKey (m ++ [(n, (⟨vs, postOfInline c⟩ : ToolVersionPlugin))]) x
            = false := by
        intro x hx
        rw [containsKey_false_iff, hkeys']
        intro hmem
        rcases List.mem_append.mp hmem with hmm | hmm
        · exact (containsKey_false_iff m x).mp
            (hfresh x (List.mem_cons_of_mem n hx)) hmm
        · rw [List.mem_singleton] at hmm
          exact hnot (hmm ▸ hx)
      obtain ⟨h1, h2, h3⟩ := ih _ hm' hall.2 hdist' hfresh'
      refine ⟨?_, ?_, ?_⟩
      · simp only [List.map_cons, List.foldl_cons]
        rw [hstep, hins, h1, renderJoin_append,
          show renderJoin [(n, (⟨vs, postOfInline c⟩ : ToolVersionPlugin))] =
            renderCLine (.entry n vs c) by
              show renderEntry (n, (⟨vs, postOfInline c⟩ : ToolVersionPlugin)) ++ []
                = renderCLine (.entry n vs c)
              rw [List.append_nil]
              exact renderEntry_cline n vs c,
          show renderLines (CLine.entry n vs c :: ls) =
            renderCLine (.entry n vs c) ++ renderLines ls by simp [renderLines]]
        simp
      · simp only [List.map_cons, List.foldl_cons]
        rw [hstep, hins, h2, hkeys']
        show (keysOf m ++ [n]) ++ namesOfLines ls = keysOf m ++ n :: namesOfLines ls
        simp
      · simp only [List.map_cons, List.foldl_cons]
        rw [hstep, hins]
        exact h3

theorem foldl_comments_nil (ls : List CLine)
    (hc : ∀ l ∈ ls, isCommentCLine l = true) (hok : ls.all clineOk = true) :
    List.foldl processLine [] (ls.map lineContent) = [] := by
  induction ls with
  | nil => rfl
  | cons l ls ih =>
    simp only [List.all_cons, Bool.and_eq_true] at hok
    match l with
    | .comment raw =>
      simp only [List.map_cons, List.foldl_cons]
      rw [processLine_comment [] (lineContent (CLine.comment raw))
        (rawOk_isCommentLine raw hok.1)]
      exact ih (fun x hx => hc x (List.mem_cons_of_mem _ hx)) hok.2
    | .entry n vs c =>
      have := hc (.entry n vs c) (List.mem_cons_self _ _)
      simp [isCommentCLine] at this

theorem trimEnd_renderLines (ls : List CLine) (hne : ls ≠ [])
    (hall : ls.all clineOk = true) :
    trimEnd (renderLines ls) ++ ['\n'] = renderLines ls := by
  obtain ⟨last, hlast⟩ := exists_getLast? ls hne
  obtain ⟨init, hinit⟩ : ∃ init, ls = init ++ [last] :=
    ⟨ls.dropLast, list_eq_dropLast_append ls last hlast⟩
  have hlastok : clineOk last = true := by
    apply List.all_eq_true.mp hall
    rw [hinit]
    exact List.mem_append_right _ (List.mem_singleton.mpr rfl)
  rw [hinit, renderLines_append,
    show renderLines [last] = lineContent last ++ ['\n'] by
      simp [renderLines, renderCLine],
    ← List.append_assoc,
    trimEnd_append_nl _ (lastNotWs_append _ _ (lineContent_lastNotWs last hlastok))]

/-- Round trip on canonical text: the central helper for the round-trip
claims. -/
theorem roundtrip_rendered (ls : List CLine) (h : canonicalLines ls = true) :
    dump (parseDoc (renderLines ls)) = renderLines ls := by
  unfold canonicalLines at h
  simp only [Bool.and_eq_true, Bool.not_eq_true'] at h
  obtain ⟨⟨hne0, hall⟩, hdist⟩ := h
  have hne : ls ≠ [] := by
    intro hh
    subst hh
    simp at hne0
  have hlines : rustLines (renderLines ls) = ls.map lineContent :=
    rustLines_renderLines ls hall
  have hpre : preLoop (ls.map lineContent) =
      renderLines (ls.takeWhile isCommentCLine) := preLoop_render ls hall
  have hsplit : ls.takeWhile isCommentCLine ++ ls.dropWhile isCommentCLine = ls :=
    List.takeWhile_append_dropWhile isCommentCLine ls
  unfold dump parseDoc
  rw [hlines, hpre, dump_foldl]
  match hrest : ls.dropWhile isCommentCLine with
  | [] =>
    have hcs : ls.takeWhile isCommentCLine = ls := by
      have hh := hsplit
      rw [hrest, List.append_nil] at hh
      exact hh
    have hallcomm : ∀ l ∈ ls, isCommentCLine l = true := by
      intro l hl
      rw [← hcs] at hl
      exact List.mem_takeWhile_imp hl
    rw [foldl_comments_nil ls hallcomm hall, hcs,
      show renderJoin ([] : Entries) = [] from rfl, List.append_nil]
    exact trimEnd_renderLines ls hne hall
  | e :: rest' =>
    have hecomm : isCommentCLine e = false :=
      dropWhile_head_false isCommentCLine ls e rest' hrest
    match e, hecomm with
    | .comment raw, hecomm => simp [isCommentCLine] at hecomm
    | .entry n vs c, _ =>
      have hls : ls.takeWhile isCommentCLine ++ (CLine.entry n vs c :: rest') = ls := by
        rw [← hrest]
        exact hsplit
      have hcomm : ∀ l ∈ ls.takeWhile isCommentCLine, isCommentCLine l = true :=
        fun l hl => List.mem_takeWhile_imp hl
      have hall' : (ls.takeWhile isCommentCLine).all clineOk = true ∧
          clineOk (.entry n vs c) = true ∧ rest'.all clineOk = true := by
        rw [← hls] at hall
        simp only [List.all_append, List.all_cons, Bool.and_eq_true] at hall
        exact ⟨hall.1, hall.2.1, hall.2.2⟩
      have hnames : namesOfLines ls = n :: namesOfLines rest' := by
        rw [← hls, namesOfLines_append,
          namesOfLines_comments _ hcomm]
        rfl
      rw [hnames] at hdist
      obtain ⟨hnot, hdist'⟩ := distinctKeys_cons n (namesOfLines rest') hdist
      have hfresh' : ∀ x ∈ namesOfLines rest',
          containsKey [(n, (⟨vs, postOfInline c⟩ : ToolVersionPlugin))] x
            = false := by
        intro x hx
        rw [containsKey_false_iff]
        intro hmem
        simp only [keysOf, List.map_cons, List.map_nil, List.mem_singleton] at hmem
        exact hnot (hmem ▸ hx)
      obtain ⟨h1, _, _⟩ := foldl_groups rest'
        [(n, (⟨vs, postOfInline c⟩ : ToolVersionPlugin))] (by simp)
        hall'.2.2 hdist' hfresh'
      have hfold : List.foldl processLine [] (ls.map lineContent) =
          List.foldl processLine
            [(n, (⟨vs, postOfInline c⟩ : ToolVersionPlugin))]
            (rest'.map lineContent) := by
        rw [← hls, List.map_append, List.foldl_append,
          foldl_comments_nil _ hcomm hall'.1, List.map_cons, List.foldl_cons,
          processLine_entry_render [] n vs c hall'.2.1]
        rfl
      rw [hfold, h1,
        show renderJoin [(n, (⟨vs, postOfInline c⟩ : ToolVersionPlugin))] =
          renderCLine (.entry n vs c) by
            show renderEntry (n, (⟨vs, postOfInline c⟩ : ToolVersionPlugin)) ++ []
              = renderCLine (.entry n vs c)
            rw [List.append_nil]
            exact renderEntry_cline n vs c]
      have hrender : renderLines (ls.takeWhile isCommentCLine) ++
          (renderCLine (.entry n vs c) ++ renderLines rest') =
          renderLines ls := by
        conv_rhs => rw [← hls]
        rw [renderLines_append]
        simp [renderLines]
      rw [hrender]
      exact trimEnd_renderLines ls hne hall

/-! ### Duplicate-key collapse machinery -/

theorem entryNameOf_comment (line : Str) (h : isCommentLine line = true) :
    entryNameOf line = none := by
  unfold entryNameOf
  rw [if_pos h]

theorem entryNames_cons_none (line : Str) (rest : List Str)
    (h : entryNameOf line = none) :
    entryNames (line :: rest) = entryNames rest := by
  unfold entryNames
  exact List.filterMap_cons_none h

theorem entryNames_cons_some (line : Str) (rest : List Str) (k : Str)
    (h : entryNameOf line = some k) :
    entryNames (line :: rest) = k :: entryNames rest := by
  unfold entryNames
  exact List.filterMap_cons_some h

theorem dedupFirstAux_congr (seen1 seen2 : List Str)
    (h : ∀ x, x ∈ seen1 ↔ x ∈ seen2) (xs : List Str) :
    dedupFirstAux seen1 xs = dedupFirstAux seen2 xs := by
  induction xs generalizing seen1 seen2 with
  | nil => rfl
  | cons x xs ih =>
    unfold dedupFirstAux
    by_cases hx : x ∈ seen1
    · rw [if_pos hx, if_pos ((h x).mp hx)]
      exact ih seen1 seen2 h
    · rw [if_neg hx, if_neg (fun hh => hx ((h x).mpr hh))]
      rw [ih (x :: seen1) (x :: seen2) (fun y => by simp [h y])]

theorem keysOf_foldl_dedup (lines : List Str) : ∀ (m : Entries) (seen : List Str),
    (∀ x, x ∈ seen ↔ x ∈ keysOf m) →
    keysOf (List.foldl processLine m lines) =
      keysOf m ++ dedupFirstAux seen (entryNames lines) := by
  induction lines with
  | nil =>
    intro m seen _
    simp [entryNames, dedupFirstAux]
  | cons line rest ih =>
    intro m seen hseen
    rw [List.foldl_cons]
    by_cases hcl : isCommentLine line
    · have hname : entryNameOf line = none := entryNameOf_comment line hcl
      rw [processLine_comment m line hcl, entryNames_cons_none line rest hname]
      rw [ih (appendToLastPost m (line ++ ['\n'])) seen
        (fun x => by rw [hseen x, keysOf_appendToLastPost])]
      rw [keysOf_appendToLastPost]
    · have hcl' : isCommentLine line = false := by simpa using hcl
      match hname : entryNameOf line with
      | none =>
        rw [processLine_name_none m line hcl' hname,
          entryNames_cons_none line rest hname]
        exact ih m seen hseen
      | some n =>
        rw [processLine_name_some m line n hname,
          entryNames_cons_some line rest n hname]
        by_cases hmem : containsKey m n = true
        · have hnseen : n ∈ seen := (hseen n).mpr ((containsKey_iff m n).mp hmem)
          unfold dedupFirstAux
          rw [if_pos hnseen]
          have hkeys : keysOf (insertIdx m n (pluginOfLine line)) = keysOf m :=
            keysOf_insertIdx_mem m n _ hmem
          rw [ih (insertIdx m n (pluginOfLine line)) seen
            (fun x => by rw [hseen x, hkeys]), hkeys]
        · have hfresh : containsKey m n = false := by simpa using hmem
          have hnseen : ¬ n ∈ seen := by
            intro hh
            exact (containsKey_false_iff m n).mp hfresh ((hseen n).mp hh)
          unfold dedupFirstAux
          rw [if_neg hnseen]
          have hins : insertIdx m n (pluginOfLine line) =
              m ++ [(n, pluginOfLine line)] := insertIdx_fresh m n _ hfresh
          rw [hins]
          have hkeys : keysOf (m ++ [(n, pluginOfLine line)]) = keysOf m ++ [n] := by
            simp [keysOf]
          rw [ih (m ++ [(n, pluginOfLine line)]) (n :: seen) (fun x => by
            rw [hkeys]
            simp only [List.mem_cons, List.mem_append, List.mem_singleton, hseen x]
            tauto), hkeys]
          simp

theorem keysOf_parse_plugins (s : Str) :
    keysOf ((rustLines s).foldl processLine []) =
      dedupFirst (entryNames (rustLines s)) := by
  have h := keysOf_foldl_dedup (rustLines s) [] [] (by simp [keysOf])
  simpa [dedupFirst, keysOf] using h

theorem lookup_foldl_stable (lines : List Str) : ∀ (m : Entries) (n : Str),
    ¬ n ∈ entryNames lines →
    ((lookupKey (List.foldl processLine m lines) n).map ToolVersionPlugin.versions
        = (lookupKey m n).map ToolVersionPlugin.versions) ∧
      (lines.all (fun l => !isCommentLine l) = true →
        lookupKey (List.foldl processLine m lines) n = lookupKey m n) := by
  induction lines with
  | nil =>
    intro m n _
    exact ⟨rfl, fun _ => rfl⟩
  | cons line rest ih =>
    intro m n hn
    rw [List.foldl_cons]
    by_cases hcl : isCommentLine line
    · have hname : entryNameOf line = none := entryNameOf_comment line hcl
      have hn' : ¬ n ∈ entryNames rest := by
        rw [← entryNames_cons_none line rest hname]
        exact hn
      rw [processLine_comment m line hcl]
      constructor
      · rw [(ih _ n hn').1, lookupKey_appendToLastPost_versions]
      · intro hall
        simp only [List.all_cons, Bool.and_eq_true, Bool.not_eq_true'] at hall
        rw [hall.1] at hcl
        simp at hcl
    · have hcl' : isCommentLine line = false := by simpa using hcl
      match hname : entryNameOf line with
      | none =>
        have hn' : ¬ n ∈ entryNames rest := by
          rw [← entryNames_cons_none line rest hname]
          exact hn
        rw [processLine_name_none m line hcl' hname]
        constructor
        · exact (ih m n hn').1
        · intro hall
          simp only [List.all_cons, Bool.and_eq_true] at hall
          exact (ih m n hn').2 hall.2
      | some k =>
        have hkn : ¬(n = k) ∧ ¬ n ∈ entryNames rest := by
          rw [entryNames_cons_some line rest k hname] at hn
          constructor
          · intro hh
            exact hn (hh ▸ List.mem_cons_self n _)
          · intro hh
            exact hn (List.mem_cons_of_mem k hh)
        rw [processLine_name_some m line k hname]
        constructor
        · rw [(ih _ n hkn.2).1,
            lookupKey_insertIdx_other m k n (pluginOfLine line) hkn.1]
        · intro hall
          simp only [List.all_cons, Bool.and_eq_true] at hall
          rw [(ih _ n hkn.2).2 hall.2,
            lookupKey_insertIdx_other m k n (pluginOfLine line) hkn.1]

/-! ### swap_remove machinery -/

theorem mem_keysOf_cons (e : Str × ToolVersionPlugin) (es : Entries) (k : Str) :
    k ∈ keysOf (e :: es) ↔ k = e.1 ∨ k ∈ keysOf es := by
  simp [keysOf]

theorem findKeyIdx_spec (m : Entries) (k : Str) : ∀ i, findKeyIdx m k = some i →
    i < m.length ∧ ∃ v, m[i]? = some (k, v) := by
  induction m with
  | nil =>
    intro i h
    simp [findKeyIdx] at h
  | cons e es ih =>
    intro i h
    unfold findKeyIdx at h
    by_cases he : e.1 = k
    · rw [if_pos he] at h
      injection h with h1
      subst h1
      refine ⟨by simp, ⟨e.2, ?_⟩⟩
      rw [List.getElem?_cons_zero]
      rw [show e = (k, e.2) from by rw [← he]]
    · rw [if_neg he] at h
      match hfi : findKeyIdx es k with
      | none => rw [hfi] at h; simp at h
      | some j =>
        rw [hfi] at h
        simp at h
        subst h
        obtain ⟨hj, v, hv⟩ := ih j hfi
        exact ⟨by simpa using hj, ⟨v, by simpa using hv⟩⟩

theorem findKeyIdx_none_iff (m : Entries) (k : Str) :
    findKeyIdx m k = none ↔ ¬ k ∈ keysOf m := by
  induction m with
  | nil => simp [findKeyIdx, keysOf]
  | cons e es ih =>
    unfold findKeyIdx
    by_cases he : e.1 = k
    · rw [if_pos he]
      constructor
      · intro h; simp at h
      · intro h
        exact absurd ((mem_keysOf_cons e es k).mpr (Or.inl he.symm)) h
    · rw [if_neg he]
      constructor
      · intro h hmem
        rcases (mem_keysOf_cons e es k).mp hmem with h1 | h1
        · exact he h1.symm
        · have : findKeyIdx es k = none := by
            match hfi : findKeyIdx es k with
            | none => rfl
            | some j => rw [hfi] at h; simp at h
          exact (ih.mp this) h1
      · intro h
        have : ¬ k ∈ keysOf es := fun hh =>
          h ((mem_keysOf_cons e es k).mpr (Or.inr hh))
        rw [ih.mpr this]
        rfl

theorem lookupKey_none_iff (m : Entries) (k : Str) :
    lookupKey m k = none ↔ ¬ k ∈ keysOf m := by
  induction m with
  | nil => simp [lookupKey, keysOf]
  | cons e es ih =>
    unfold lookupKey
    by_cases he : e.1 = k
    · rw [if_pos he]
      constructor
      · intro h; simp at h
      · intro h
        exact absurd ((mem_keysOf_cons e es k).mpr (Or.inl he.symm)) h
    · rw [if_neg he]
      rw [ih]
      constructor
      · intro h hmem
        rcases (mem_keysOf_cons e es k).mp hmem with h1 | h1
        · exact he h1.symm
        · exact h h1
      · intro h hh
        exact h ((mem_keysOf_cons e es k).mpr (Or.inr hh))

theorem lookupKey_mem (m : Entries) (k : Str) (v : ToolVersionPlugin)
    (h : lookupKey m k = some v) : (k, v) ∈ m := by
  induction m with
  | nil => simp [lookupKey] at h
  | cons e es ih =>
    unfold lookupKey at h
    by_cases he : e.1 = k
    · rw [if_pos he] at h
      injection h with h1
      subst h1
      rw [show e = (k, e.2) from by rw [← he]]
      exact List.mem_cons_self _ _
    · rw [if_neg he] at h
      exact List.mem_cons_of_mem e (ih h)

theorem mem_lookupKey (m : Entries) (k : Str) (v : ToolVersionPlugin)
    (hnd : (keysOf m).Nodup) (h : (k, v) ∈ m) : lookupKey m k = some v := by
  induction m with
  | nil => simp at h
  | cons e es ih =>
    simp only [keysOf, List.map_cons, List.nodup_cons] at hnd
    unfold lookupKey
    rcases List.mem_cons.mp h with h1 | h1
    · rw [← h1]
      rw [if_pos rfl]
    · have hke : ¬(e.1 = k) := by
        intro hh
        apply hnd.1
        rw [hh]
        exact List.mem_map.mpr ⟨(k, v), h1, rfl⟩
      rw [if_neg hke]
      exact ih hnd.2 h1

theorem set_last_dropLast_perm {α : Type} : ∀ (m : List α) (i : Nat) (e : α),
    i < m.length → m.getLast? = some e →
    List.Perm ((m.set i e).dropLast) (m.eraseIdx i)
  | [], i, e, hi, _ => by simp at hi
  | a :: rest, 0, e, hi, hlast => by
    match rest with
    | [] =>
      simp only [List.getLast?_singleton, Option.some.injEq] at hlast
      subst hlast
      exact List.Perm.nil
    | b :: rest' =>
      have hlast' : (b :: rest').getLast? = some e := by
        rwa [List.getLast?_cons_cons] at hlast
      have hdecomp : b :: rest' = (b :: rest').dropLast ++ [e] :=
        list_eq_dropLast_append _ e hlast'
      show List.Perm ((e :: b :: rest').dropLast) (b :: rest')
      rw [List.dropLast_cons_of_ne_nil (by simp)]
      conv_rhs => rw [hdecomp]
      exact (List.perm_append_singleton e _).symm
  | a :: rest, i+1, e, hi, hlast => by
    match rest with
    | [] => simp at hi
    | b :: rest' =>
      have hlast' : (b :: rest').getLast? = some e := by
        rwa [List.getLast?_cons_cons] at hlast
      have hi' : i < (b :: rest').length := by simpa using hi
      have ih := set_last_dropLast_perm (b :: rest') i e hi' hlast'
      show List.Perm ((a :: (b :: rest').set i e).dropLast)
        (a :: (b :: rest').eraseIdx i)
      rw [List.dropLast_cons_of_ne_nil (by cases i <;> simp [List.set])]
      exact ih.cons a

theorem eraseIdx_key_facts (m : Entries) : ∀ (i : Nat) (k : Str)
    (v0 : ToolVersionPlugin), m[i]? = some (k, v0) → (keysOf m).Nodup →
    (¬ k ∈ keysOf (m.eraseIdx i)) ∧
      (∀ k' v, ¬(k' = k) → ((k', v) ∈ m.eraseIdx i ↔ (k', v) ∈ m)) := by
  induction m with
  | nil =>
    intro i k v0 h
    simp at h
  | cons e es ih =>
    intro i k v0 h hnd
    match i with
    | 0 =>
      rw [List.getElem?_cons_zero] at h
      injection h with h1
      subst h1
      simp only [keysOf, List.map_cons, List.nodup_cons] at hnd
      constructor
      · intro hh
        exact hnd.1 (by simpa [keysOf] using hh)
      · intro k' v hne
        show (k', v) ∈ es ↔ (k', v) ∈ (k, v0) :: es
        constructor
        · exact List.mem_cons_of_mem _
        · intro hh
          rcases List.mem_cons.mp hh with hh1 | hh2
          · injection hh1 with hk hv
            exact absurd hk hne
          · exact hh2
    | i+1 =>
      rw [List.getElem?_cons_succ] at h
      have hnd' : (keysOf es).Nodup := by
        simp only [keysOf, List.map_cons, List.nodup_cons] at hnd
        exact hnd.2
      obtain ⟨ha, hb⟩ := ih i k v0 h hnd'
      have hkes : k ∈ keysOf es := by
        have : (k, v0) ∈ es := List.getElem?_mem h
        exact List.mem_map.mpr ⟨(k, v0), this, rfl⟩
      constructor
      · show ¬ k ∈ keysOf (e :: es.eraseIdx i)
        intro hh
        rcases (mem_keysOf_cons e _ k).mp hh with hh1 | hh1
        · simp only [keysOf, List.map_cons, List.nodup_cons] at hnd
          exact hnd.1 (hh1 ▸ hkes)
        · exact ha hh1
      · intro k' v hne
        show (k', v) ∈ e :: es.eraseIdx i ↔ (k', v) ∈ e :: es
        constructor
        · intro hh
          rcases List.mem_cons.mp hh with hh1 | hh1
          · exact hh1 ▸ List.mem_cons_self e es
          · exact List.mem_cons_of_mem e ((hb k' v hne).mp hh1)
        · intro hh
          rcases List.mem_cons.mp hh with hh1 | hh1
          · exact hh1 ▸ List.mem_cons_self e _
          · exact List.mem_cons_of_mem e ((hb k' v hne).mpr hh1)

theorem swapRemove_perm (m : Entries) (k : Str) (i : Nat)
    (hidx : findKeyIdx m k = some i) :
    List.Perm (swapRemove m k) (m.eraseIdx i) := by
  obtain ⟨hi, v0, hv⟩ := findKeyIdx_spec m k i hidx
  have hne : m ≠ [] := by
    intro hh
    subst hh
    simp at hi
  obtain ⟨lastE, hlast⟩ := exists_getLast? m hne
  unfold swapRemove
  rw [hidx, hlast]
  exact set_last_dropLast_perm m i lastE hi hlast

theorem swapRemove_facts (m : Entries) (k : Str) (i : Nat)
    (hnd : (keysOf m).Nodup) (hidx : findKeyIdx m k = some i) :
    lookupKey (swapRemove m k) k = none ∧
      (∀ k' v, ¬(k' = k) →
        (lookupKey (swapRemove m k) k' = some v ↔ lookupKey m k' = some v)) ∧
      (swapRemove m k).length = m.length - 1 := by
  obtain ⟨hi, v0, hv⟩ := findKeyIdx_spec m k i hidx
  have hperm := swapRemove_perm m k i hidx
  obtain ⟨hnotk, hmemiff⟩ := eraseIdx_key_facts m i k v0 hv hnd
  have hkeysperm : List.Perm (keysOf (swapRemove m k)) (keysOf (m.eraseIdx i)) := by
    unfold keysOf
    exact hperm.map (fun e => e.1)
  have hsubk : List.Sublist (keysOf (m.eraseIdx i)) (keysOf m) := by
    unfold keysOf
    exact List.Sublist.map (fun e => e.1) (List.eraseIdx_sublist m i)
  have hnd_erase : (keysOf (m.eraseIdx i)).Nodup := hnd.sublist hsubk
  have hnd_res : (keysOf (swapRemove m k)).Nodup :=
    (hkeysperm.nodup_iff).mpr hnd_erase
  refine ⟨?_, ?_, ?_⟩
  · rw [lookupKey_none_iff]
    intro hmem
    exact hnotk (hkeysperm.mem_iff.mp hmem)
  · intro k' v hne
    constructor
    · intro hl
      have hm : (k', v) ∈ swapRemove m k := lookupKey_mem _ _ _ hl
      have hmm : (k', v) ∈ m.eraseIdx i := hperm.mem_iff.mp hm
      exact mem_lookupKey m k' v hnd ((hmemiff k' v hne).mp hmm)
    · intro hl
      have hm : (k', v) ∈ m := lookupKey_mem _ _ _ hl
      have hmm : (k', v) ∈ m.eraseIdx i := (hmemiff k' v hne).mpr hm
      exact mem_lookupKey _ k' v hnd_res (hperm.mem_iff.mpr hmm)
  · rw [hperm.length_eq, List.length_eraseIdx]
    simp [hi]

theorem swapRemove_keys (m : Entries) (k : Str) (i : Nat)
    (lastE : Str × ToolVersionPlugin) (hidx : findKeyIdx m k = some i)
    (hlast : m.getLast? = some lastE) :
    keysOf (swapRemove m k) = ((keysOf m).set i lastE.1).dropLast := by
  unfold swapRemove
  rw [hidx, hlast]
  show ((m.set i lastE).dropLast).map (fun e => e.1) = _
  rw [List.map_dropLast, List.map_set]
  rfl

/-! ### Serializer and mutator helper lemmas -/

theorem getLast?_none_nil {α : Type} (l : List α) (h : l.getLast? = none) :
    l = [] := by
  match l with
  | [] => rfl
  | a :: as =>
    obtain ⟨e, he⟩ := exists_getLast? (a :: as) (by simp)
    rw [he] at h
    simp at h

theorem parse_plugins_comment_append (s c : Str)
    (h0 : s = [] ∨ s.getLast? = some '\n') (h1 : isCommentLine c = true)
    (h2 : '\n' ∉ c) (h3 : c.getLast? ≠ some '\r') :
    (rustLines (s ++ (c ++ ['\n']))).foldl processLine [] =
      appendToLastPost ((rustLines s).foldl processLine []) (c ++ ['\n']) := by
  rw [rustLines_append_line s c h0 h2 h3, List.foldl_append]
  show processLine ((rustLines s).foldl processLine []) c = _
  rw [processLine_comment _ c h1]

theorem dump_eq_spec_aux (d : ToolVersions) : dump d = dump_spec d := by
  have hmap : d.plugins.map renderEntry =
      d.plugins.map (fun e => e.1 ++ [' '] ++ joinSp e.2.versions ++ e.2.post) :=
    List.map_congr_left (fun e _ => by simp [renderEntry])
  unfold dump dump_spec
  rw [dump_foldl]
  unfold renderJoin
  rw [hmap]

theorem lookupKey_append_right (m m2 : Entries) (k : Str)
    (h : lookupKey m k = none) : lookupKey (m ++ m2) k = lookupKey m2 k := by
  induction m with
  | nil => rfl
  | cons e es ih =>
    have h2 : (if e.1 = k then some e.2 else lookupKey es k) = none := h
    show (if e.1 = k then some e.2 else lookupKey (es ++ m2) k) = lookupKey m2 k
    by_cases he : e.1 = k
    · rw [if_pos he] at h2
      simp at h2
    · rw [if_neg he] at h2
      rw [if_neg he]
      exact ih h2

theorem lookupKey_modifyKey (m : Entries) (k : Str)
    (f : ToolVersionPlugin → ToolVersionPlugin) :
    lookupKey (modifyKey m k f) k = (lookupKey m k).map f := by
  induction m with
  | nil => rfl
  | cons e es ih =>
    by_cases he : e.1 = k
    · show lookupKey ((if e.1 = k then (e.1, f e.2) else e) :: modifyKey es k f) k
        = _
      rw [if_pos he]
      show (if e.1 = k then some (f e.2) else lookupKey (modifyKey es k f) k) =
        Option.map f (if e.1 = k then some e.2 else lookupKey es k)
      rw [if_pos he, if_pos he]
      rfl
    · show lookupKey ((if e.1 = k then (e.1, f e.2) else e) :: modifyKey es k f) k
        = _
      rw [if_neg he]
      show (if e.1 = k then some e.2 else lookupKey (modifyKey es k f) k) =
        Option.map f (if e.1 = k then some e.2 else lookupKey es k)
      rw [if_neg he, if_neg he]
      exact ih

theorem lookupKey_singleton (n : Str) (v : ToolVersionPlugin) :
    lookupKey [(n, v)] n = some v := by
  show (if n = n then some v else lookupKey [] n) = some v
  rw [if_pos rfl]

theorem add_version_new (d : ToolVersions) (n v : Str)
    (h : lookupKey d.plugins n = none) :
    lookupKey (add_version d n v).plugins n = some ⟨[v], []⟩ := by
  unfold add_version ensureKey
  have hc : containsKey d.plugins n = false := by
    rw [containsKey_false_iff]
    exact (lookupKey_none_iff _ _).mp h
  rw [if_neg (by simp [hc]), lookupKey_modifyKey, lookupKey_append_right _ _ _ h,
    lookupKey_singleton]
  rfl

theorem add_version_existing (d : ToolVersions) (n v : Str) (ws : List Str)
    (p : Str) (h : lookupKey d.plugins n = some ⟨ws, p⟩) :
    lookupKey (add_version d n v).plugins n = some ⟨ws ++ [v], p⟩ := by
  unfold add_version ensureKey
  have hc : containsKey d.plugins n = true := by
    rw [containsKey_iff]
    by_contra hh
    rw [← lookupKey_none_iff] at hh
    rw [h] at hh
    simp at hh
  rw [if_pos (by simp [hc]), lookupKey_modifyKey, h]
  rfl

theorem replace_versions_foldl (vs : List Str) : ∀ (d : ToolVersions) (n : Str)
    (ws : List Str) (p : Str), lookupKey d.plugins n = some ⟨ws, p⟩ →
    lookupKey ((vs.foldl (fun d v => add_version d n v) d)).plugins n =
      some ⟨ws ++ vs, p⟩ := by
  induction vs with
  | nil =>
    intro d n ws p h
    simpa using h
  | cons v vs ih =>
    intro d n ws p h
    rw [List.foldl_cons]
    have hstep := add_version_existing d n v ws p h
    have := ih (add_version d n v) n (ws ++ [v]) p hstep
    simpa using this

theorem replace_versions_new (d : ToolVersions) (n : Str) (vs : List Str)
    (h : lookupKey d.plugins n = none) :
    lookupKey (replace_versions d n vs).plugins n = some ⟨vs, []⟩ := by
  have hc : containsKey d.plugins n = false := by
    rw [containsKey_false_iff]
    exact (lookupKey_none_iff _ _).mp h
  have hbase : lookupKey (modifyKey (ensureKey d.plugins n) n
      (fun tv => { tv with versions := ([] : List Str) })) n =
      some ⟨[], []⟩ := by
    unfold ensureKey
    rw [if_neg (by simp [hc]), lookupKey_modifyKey,
      lookupKey_append_right _ _ _ h, lookupKey_singleton]
    rfl
  unfold replace_versions
  have hres := replace_versions_foldl vs
    ⟨d.path, d.pre, modifyKey (ensureKey d.plugins n) n
      (fun tv => { tv with versions := [] })⟩ n [] [] hbase
  simpa using hres

/-! ### Claim theorems -/

/-- C1 (counterexample): the text `"a  1\n"` (two spaces) has no trailing
colons on tool names, no trailing blank lines and no duplicate tool
names, yet `dump (parse_str _)` returns `"a 1\n"`, not the original
text: the round trip fails on a text meeting the claim's stated
canonical-form conditions. -/
theorem c1_roundtrip_canonical_cex :
    hasTrailingColons (str "a  1\n") = false ∧
      noTrailingBlank (str "a  1\n") = true ∧
      hasDuplicateNames (str "a  1\n") = false ∧
      (parse_str (str "a  1\n")).map dump = Except.ok (str "a 1\n") ∧
      ¬(str "a 1\n" = str "a  1\n") :=
  ⟨by decide, by decide, by decide, rfl, by decide⟩

/-- C1 (amended): for every text in canonical form — every line either a
well-formed comment line or an entry line `name versions...` with single
space separation, nonempty `#`-free whitespace-free tokens, no trailing
colon on the name, at least one version or a nonempty inline comment not
ending in whitespace, comment lines not ending in whitespace, no
duplicate tool names, and at least one line — serializing the document
obtained by parsing that text yields exactly the original text. -/
theorem c1_roundtrip_canonical (ls : List CLine)
    (h : canonicalLines ls = true) :
    dump (parseDoc (renderLines ls)) = renderLines ls :=
  roundtrip_rendered ls h

/-- C1 (witness): the round trip at the spec's own five-line example. -/
theorem c1_roundtrip_canonical_witness :
    canonicalLines exCanonical = true ∧
      dump (parseDoc (renderLines exCanonical)) = renderLines exCanonical :=
  ⟨by decide, c1_roundtrip_canonical exCanonical (by decide)⟩

/-- C2 (counterexample): removing `"a"` from a document with entries
`a, b, c` leaves the entries in order `c, b` — the last entry is swapped
into the removed slot — not in the claimed unchanged relative order
`b, c`. -/
theorem c2_remove_plugin_order_cex :
    keysOf (parseDoc (str "a 1\nb 2\nc 3\n")).plugins =
        [str "a", str "b", str "c"] ∧
      keysOf ((remove_plugin (parseDoc (str "a 1\nb 2\nc 3\n"))
        (str "a")).plugins) = [str "c", str "b"] ∧
      ¬([str "c", str "b"] = [str "b", str "c"]) :=
  ⟨by decide, by decide, by decide⟩

/-- C2 (amended): `remove_plugin` deletes the tool's entry entirely,
including its trailing comment (the key is gone, every other key keeps
its value, the size drops by one), but the map's `remove` is a swap
remove: the former last entry moves into the removed entry's position,
so the iteration order of the remaining entries is not preserved in
general. -/
theorem c2_remove_plugin_swaps (d : ToolVersions) (k : Str) (i : Nat)
    (hnd : (keysOf d.plugins).Nodup)
    (hidx : findKeyIdx d.plugins k = some i) :
    lookupKey (remove_plugin d k).plugins k = none ∧
      (∀ k' v, ¬(k' = k) →
        (lookupKey (remove_plugin d k).plugins k' = some v ↔
          lookupKey d.plugins k' = some v)) ∧
      (remove_plugin d k).plugins.length = d.plugins.length - 1 ∧
      (∀ lastE, d.plugins.getLast? = some lastE →
        keysOf (remove_plugin d k).plugins =
          ((keysOf d.plugins).set i lastE.1).dropLast) := by
  obtain ⟨h1, h2, h3⟩ := swapRemove_facts d.plugins k i hnd hidx
  exact ⟨h1, h2, h3,
    fun lastE hlast => swapRemove_keys d.plugins k i lastE hidx hlast⟩

/-- C2 (witness): removal instantiated on the `a, b, c` document. -/
theorem c2_remove_plugin_swaps_witness :
    (keysOf (parseDoc (str "a 1\nb 2\nc 3\n")).plugins).Nodup ∧
      findKeyIdx (parseDoc (str "a 1\nb 2\nc 3\n")).plugins (str "a") =
        some 0 ∧
      lookupKey (remove_plugin (parseDoc (str "a 1\nb 2\nc 3\n"))
        (str "a")).plugins (str "a") = none :=
  ⟨by decide, by decide,
    (c2_remove_plugin_swaps (parseDoc (str "a 1\nb 2\nc 3\n")) (str "a") 0
      (by decide) (by decide)).1⟩

/-- C3: parsing never fails — `parse_str` returns `Except.ok` on every
input string — and document construction from a file fails exactly when
reading the file fails: `from_file` propagates an I/O error and succeeds
on any successfully read contents. -/
theorem c3_parse_total :
    (∀ s, parse_str s = Except.ok (parseDoc s)) ∧
      (∀ p e, from_file p (Except.error e) = Except.error e) ∧
      (∀ p s, from_file p (Except.ok s) =
        Except.ok { path := p
                    pre := (parseDoc s).pre
                    plugins := (parseDoc s).plugins }) :=
  ⟨fun _ => rfl, fun _ _ => rfl, fun _ _ => rfl⟩

/-- C4 (counterexample): in `"a 1\na 2\n#x\n"` the name `a` occurs on
two entry lines; the resulting entry's trailing comment is
`"\n#x\n"` — the comment of the last occurrence (`"\n"`) with the
following comment-only line appended — not the trailing comment taken
from the last occurrence alone, so the claim as stated fails. -/
theorem c4_duplicate_collapse_cex :
    lookupKey (parseDoc (str "a 1\na 2\n#x\n")).plugins (str "a") =
        some ⟨[str "2"], str "\n#x\n"⟩ ∧
      pluginOfLine (str "a 2") = ⟨[str "2"], str "\n"⟩ ∧
      ¬((str "\n#x\n" : Str) = str "\n") :=
  ⟨by decide, by decide, by decide⟩

/-- C4 (amended): when a tool name occurs on more than one entry line,
the parsed document's key sequence is the first-occurrence deduplication
of the entry-line names (one entry per name, placed at its first
occurrence), the entry's versions are those of the last occurrence, and
its trailing comment is that of the last occurrence provided no
comment-only line follows it (otherwise continuation comments may be
appended, per the comment-attachment rule). -/
theorem c4_duplicate_collapse (s : Str) (u : List Str) (line : Str)
    (v : List Str) (n : Str) (hlines : rustLines s = u ++ line :: v)
    (hname : entryNameOf line = some n) (hdup : n ∈ entryNames u)
    (hlastocc : ¬ n ∈ entryNames v) :
    keysOf (parseDoc s).plugins = dedupFirst (entryNames (rustLines s)) ∧
      (lookupKey (parseDoc s).plugins n).map ToolVersionPlugin.versions =
        some (pluginOfLine line).versions ∧
      (v.all (fun l => !isCommentLine l) = true →
        lookupKey (parseDoc s).plugins n = some (pluginOfLine line)) := by
  have hplug : (parseDoc s).plugins =
      List.foldl processLine (insertIdx (List.foldl processLine [] u) n
        (pluginOfLine line)) v := by
    show (rustLines s).foldl processLine [] = _
    rw [hlines, List.foldl_append, List.foldl_cons,
      processLine_name_some _ line n hname]
  refine ⟨keysOf_parse_plugins s, ?_, ?_⟩
  · rw [hplug, (lookup_foldl_stable v _ n hlastocc).1,
      lookupKey_insertIdx_self]
    rfl
  · intro hall
    rw [hplug, (lookup_foldl_stable v _ n hlastocc).2 hall,
      lookupKey_insertIdx_self]

/-- C4 (witness): the duplicate `a` in `"a 1\nb 2\na 3 #z\nc 4\n"`
collapses to the content of the last occurrence line `"a 3 #z"`. -/
theorem c4_duplicate_collapse_witness :
    rustLines (str "a 1\nb 2\na 3 #z\nc 4\n") =
        [str "a 1", str "b 2"] ++ str "a 3 #z" :: [str "c 4"] ∧
      entryNameOf (str "a 3 #z") = some (str "a") ∧
      str "a" ∈ entryNames [str "a 1", str "b 2"] ∧
      lookupKey (parseDoc (str "a 1\nb 2\na 3 #z\nc 4\n")).plugins (str "a") =
        some (pluginOfLine (str "a 3 #z")) :=
  ⟨by decide, by decide, by decide,
    (c4_duplicate_collapse (str "a 1\nb 2\na 3 #z\nc 4\n")
      [str "a 1", str "b 2"] (str "a 3 #z") [str "c 4"] (str "a")
      (by decide) (by decide) (by decide) (by decide)).2.2 (by decide)⟩

/-- C5: a comment line processed after the prior text — appended as the
raw line plus a newline — extends the trailing comment of the entry in
the last position of the map built so far (the most recently inserted
entry: insertion order is first-occurrence order, and overwriting an
existing name does not change its position); when no entry has been
inserted yet the line contributes nothing to the entries. -/
theorem c5_comment_attaches_to_last (s c : Str)
    (h0 : s = [] ∨ s.getLast? = some '\n') (h1 : isCommentLine c = true)
    (h2 : '\n' ∉ c) (h3 : c.getLast? ≠ some '\r') :
    parse_plugins (s ++ (c ++ ['\n'])) = Except.ok
      (match ((rustLines s).foldl processLine []).getLast? with
        | none => []
        | some e => ((rustLines s).foldl processLine []).dropLast ++
            [(e.1, ⟨e.2.versions, e.2.post ++ (c ++ ['\n'])⟩)]) := by
  unfold parse_plugins
  congr 1
  rw [parse_plugins_comment_append s c h0 h1 h2 h3]
  match hl : ((rustLines s).foldl processLine []).getLast? with
  | none =>
    rw [getLast?_none_nil _ hl]
    rfl
  | some e => exact appendToLastPost_eq _ _ e hl

/-- C5 (witness): the comment line `"# x"` after `"a 1\n"` lands in the
entry `a`'s trailing comment. -/
theorem c5_comment_attaches_to_last_witness :
    isCommentLine (str "# x") = true ∧
      parse_plugins (str "a 1\n" ++ (str "# x" ++ ['\n'])) = Except.ok
        [(str "a", ⟨[str "1"], str "\n# x\n"⟩)] := by
  refine ⟨by decide, ?_⟩
  rw [c5_comment_attaches_to_last (str "a 1\n") (str "# x")
    (Or.inr (by decide)) (by decide) (by decide) (by decide)]
  rfl

/-- C6 (counterexample): the text `"x 1\n\ny 2\n"` contains no colons
and already ends in a single newline after a non-whitespace character,
yet `dump (parse_str _)` drops its interior blank line and returns
`"x 1\ny 2\n"`: parsing then serializing changes more than trailing
whitespace and trailing name colons. -/
theorem c6_parse_dump_cex :
    ¬(':' ∈ str "x 1\n\ny 2\n") ∧
      noTrailingBlank (str "x 1\n\ny 2\n") = true ∧
      (parse_str (str "x 1\n\ny 2\n")).map dump =
        Except.ok (str "x 1\ny 2\n") ∧
      ¬(str "x 1\ny 2\n" = str "x 1\n\ny 2\n") :=
  ⟨by decide, by decide, rfl, by decide⟩

/-- C6 (amended): serializing immediately after parsing reproduces the
original text exactly whenever the text is canonical (well-formed
entry/comment lines, single spaces, no blank lines, unique names, no
trailing colons, no trailing whitespace); in general normalization also
collapses blank lines, extra whitespace and malformed segments, not only
end-of-text whitespace and trailing name colons. -/
theorem c6_parse_dump_canonical (s : Str)
    (h : ∃ ls, canonicalLines ls = true ∧ s = renderLines ls) :
    ∀ d, parse_str s = Except.ok d → dump d = s := by
  obtain ⟨ls, hc, rfl⟩ := h
  intro d hd
  have hok : parse_str (renderLines ls) =
      Except.ok (parseDoc (renderLines ls)) := rfl
  rw [hok] at hd
  injection hd with h1
  rw [← h1]
  exact roundtrip_rendered ls hc

/-- C6 (witness): the parse–dump round trip at the spec's example. -/
theorem c6_parse_dump_canonical_witness :
    dump (parseDoc (renderLines exCanonical)) = renderLines exCanonical :=
  c6_parse_dump_canonical (renderLines exCanonical)
    ⟨exCanonical, by decide, rfl⟩ (parseDoc (renderLines exCanonical)) rfl

/-- C7: `dump` agrees with the spec's algorithm — preamble verbatim,
then each entry in insertion order as the name, one space (also for an
empty versions list), the versions joined by single spaces, and the
trailing comment, with all trailing whitespace trimmed and exactly one
newline appended — and its result always ends in exactly one newline. -/
theorem c7_dump_algorithm (d : ToolVersions) :
    dump d = dump_spec d ∧
      ∃ t, dump d = t ++ ['\n'] ∧ ¬(t.getLast? = some '\n') := by
  refine ⟨dump_eq_spec_aux d,
    ⟨trimEnd (d.plugins.foldl (fun s e => s ++ renderEntry e) d.pre), rfl, ?_⟩⟩
  intro hc
  have hws := trimEnd_getLast_not_ws _ '\n' hc
  simp [rustIsWhitespace] at hws

/-- C8: `"ruby: 3.0.5\n"` parses to the single tool `ruby` with versions
`["3.0.5"]` (empty preamble), and dumping yields `"ruby 3.0.5\n"`: the
trailing colon is removed. -/
theorem c8_trailing_colon_normalization :
    parse_str (str "ruby: 3.0.5\n") = Except.ok
        { path := []
          pre := []
          plugins := [(str "ruby", ⟨[str "3.0.5"], str "\n"⟩)] } ∧
      dump (parseDoc (str "ruby: 3.0.5\n")) = str "ruby 3.0.5\n" :=
  ⟨rfl, by decide⟩

/-- C9: the line `"python 3.11.0 3.10.0 # some comment # more comment"`
parses to tool `python`, versions `["3.11.0", "3.10.0"]` and trailing
comment exactly `" # some comment # more comment\n"`: the split happens
at the first `#` only, the rest kept verbatim. -/
theorem c9_comment_attribution :
    (parseDoc (str "python 3.11.0 3.10.0 # some comment # more comment")).plugins
      = [(str "python",
          ⟨[str "3.11.0", str "3.10.0"],
            str " # some comment # more comment\n"⟩)] := by
  decide

/-- C10: an entry created for an absent tool by `add_version` (or
`replace_versions`) carries the empty trailing comment `""` (not
`"\n"`), so dumping runs such an entry together with the next one:
from the empty document, `add_version "a" "1"` then `add_version "b"
"2"` dumps to `"a 1b 2\n"`. -/
theorem c10_fresh_entry_empty_post :
    (∀ (d : ToolVersions) (n v : Str), lookupKey d.plugins n = none →
        lookupKey (add_version d n v).plugins n = some ⟨[v], []⟩) ∧
      (∀ (d : ToolVersions) (n : Str) (vs : List Str),
        lookupKey d.plugins n = none →
        lookupKey (replace_versions d n vs).plugins n = some ⟨vs, []⟩) ∧
      dump (add_version (add_version (ToolVersions.init []) (str "a")
        (str "1")) (str "b") (str "2")) = str "a 1b 2\n" :=
  ⟨add_version_new, replace_versions_new, by decide⟩

/-- C10 (witness): `add_version` on a fresh tool name yields the entry
with an empty trailing comment. -/
theorem c10_fresh_entry_empty_post_witness :
    lookupKey (ToolVersions.init []).plugins (str "c") = none ∧
      lookupKey (add_version (ToolVersions.init []) (str "c")
        (str "7")).plugins (str "c") = some ⟨[str "7"], []⟩ :=
  ⟨by decide, c10_fresh_entry_empty_post.1 (ToolVersions.init []) (str "c")
    (str "7") (by decide)⟩
